import Mathlib

/-!
# Verification of the hybrid retrieval pipeline

Shallow embedding of the multi-stage retrieval pipeline of this repository
(`src/grounding/query/query_adk.py`, `src/grounding/query/retriever.py`,
`src/rag_mcp_server/server.py`) and proofs of the specified properties.

Python dictionaries carrying candidate payloads are embedded as the
`Candidate` structure; optional dictionary keys become `Option` fields;
floating point scores are embedded as exact rationals (the claims are about
the score formulas, not float rounding); fallible calls become `Except`.
-/

namespace Spec2Proof

/-- A retrieved candidate, embedding the payload dictionaries built in
`search_adk` (query_adk.py lines 392-406) and the Qdrant point payloads read
in `retrieve_adk_evidence`.  `rrf_score` / `rerank_score` model the
dictionary keys that are only present after fusion / reranking. -/
structure Candidate where
  id : Nat
  kind : String
  corpus : String
  repo : String
  path : String
  commit : String
  chunk_id : String
  start_line : Option Int
  end_line : Option Int
  text : String
  score : Rat
  rrf_score : Option Rat
  rerank_score : Option Rat
  reranked : Bool
deriving DecidableEq, Repr

/-! ## Query normalizer (`_normalize_query`, retriever.py lines 32-41)

`" ".join(query.split())`: Python `str.split()` with no separator splits on
runs of whitespace and drops empty pieces; `" ".join` puts a single space
between the pieces.  We embed the ASCII whitespace characters recognized by
`str.split`. -/

/-- The ASCII whitespace characters that Python `str.split()` splits on. -/
def isSpaceChar (c : Char) : Bool :=
  c = ' ' || c = '\t' || c = '\n' || c = '\r' || c = '\x0b' || c = '\x0c'

/-- `wordsAux l acc` accumulates the current word (reversed) in `acc` and
returns the list of whitespace-free words of `l`, as Python `str.split()`
does. -/
def wordsAux : List Char → List Char → List (List Char)
  | [], acc => if acc = [] then [] else [acc.reverse]
  | c :: cs, acc =>
    if isSpaceChar c then
      if acc = [] then wordsAux cs [] else acc.reverse :: wordsAux cs []
    else
      wordsAux cs (c :: acc)

/-- `" ".join(words)`. -/
def joinWords : List (List Char) → List Char
  | [] => []
  | [w] => w
  | w :: ws => w ++ ' ' :: joinWords ws

/-- `_normalize_query` on character lists. -/
def normalizeChars (l : List Char) : List Char :=
  joinWords (wordsAux l [])

/-- `_normalize_query(query)` = `" ".join(query.split())` (retriever.py line 41). -/
def normalize_query (s : String) : String :=
  String.mk (normalizeChars s.data)

/-- A character list contains no Python whitespace. -/
def noSpace (w : List Char) : Prop := ∀ c ∈ w, isSpaceChar c = false

/-! ## Reciprocal rank fusion (`reciprocal_rank_fusion`, query_adk.py lines 142-169)

The Python function keeps a `defaultdict(float)` of scores and a first-seen
`doc_map`, both iterated in insertion order.  We embed both as one
association list in insertion order: entries `(doc_id, score, first_seen_doc)`. -/

/-- One `scores[doc_id] += 1.0 / (k + rank)` step together with the
`doc_map.setdefault`: an existing entry gets its score bumped and keeps its
first-seen payload; a new id is appended at the end (insertion order). -/
def rrfUpdate (k : Rat) (r : Nat) (d : Candidate) :
    List (Nat × Rat × Candidate) → List (Nat × Rat × Candidate)
  | [] => [(d.id, 1 / (k + (r : Rat)), d)]
  | e :: es =>
    if e.1 = d.id then (e.1, e.2.1 + 1 / (k + (r : Rat)), e.2.2) :: es
    else e :: rrfUpdate k r d es

/-- `for rank, doc in enumerate(results, start=1)` over one result list. -/
def rrfProcess (k : Rat) :
    List Candidate → Nat → List (Nat × Rat × Candidate) → List (Nat × Rat × Candidate)
  | [], _, acc => acc
  | d :: ds, r, acc => rrfProcess k ds (r + 1) (rrfUpdate k r d acc)

/-- The outer `for results in results_lists` loop. -/
def rrfAccum (k : Rat) (results_lists : List (List Candidate)) :
    List (Nat × Rat × Candidate) :=
  results_lists.foldl (fun acc l => rrfProcess k l 1 acc) []

/-- Descending order on accumulated RRF scores, as used by
`sorted(scores.keys(), key=lambda x: scores[x], reverse=True)` (CPython's
sort is stable, as is insertion sort). -/
def rrfDesc (a b : Nat × Rat × Candidate) : Prop := b.2.1 ≤ a.2.1

instance : DecidableRel rrfDesc := fun a b => inferInstanceAs (Decidable (b.2.1 ≤ a.2.1))

instance : IsTotal (Nat × Rat × Candidate) rrfDesc :=
  ⟨fun a b => le_total b.2.1 a.2.1⟩

instance : IsTrans (Nat × Rat × Candidate) rrfDesc :=
  ⟨fun _ _ _ h1 h2 => le_trans h2 h1⟩

/-- The Python default `k = 60`. -/
def rrfDefaultK : Rat := 60

/-- `reciprocal_rank_fusion(results_lists, k)`: accumulate per-id scores and
first-seen payloads, sort ids by score descending, and emit each first-seen
payload with its accumulated score stored under `rrf_score`. -/
def reciprocal_rank_fusion (results_lists : List (List Candidate)) (k : Rat) :
    List Candidate :=
  ((rrfAccum k results_lists).insertionSort rrfDesc).map
    (fun e => { e.2.2 with rrf_score := some e.2.1 })

/-- The 1-based rank of id `i` in a result list (`none` when absent),
counting from start rank `r`. -/
def rankOfId (i : Nat) : List Candidate → Nat → Option Nat
  | [], _ => none
  | d :: ds, r => if d.id = i then some r else rankOfId i ds (r + 1)

/-- The spec's per-list RRF contribution: `1 / (k + rank)` with rank starting
at 1, and `0` for lists not containing the id. -/
def rankContrib (k : Rat) (i : Nat) (l : List Candidate) : Rat :=
  match rankOfId i l 1 with
  | some r => 1 / (k + (r : Rat))
  | none => 0

/-- The spec's fused score: `score(d) = Σ over lists of 1 / (k + rank)`. -/
def rrfSpecScore (k : Rat) (i : Nat) (results_lists : List (List Candidate)) : Rat :=
  (results_lists.map (rankContrib k i)).sum

/-- Accumulated score of id `i` in the association list (0 when absent). -/
def accScore (acc : List (Nat × Rat × Candidate)) (i : Nat) : Rat :=
  match acc.find? (fun e => e.1 == i) with
  | some e => e.2.1
  | none => 0

/-- First-seen payload recorded for id `i` in the association list. -/
def accPayload (acc : List (Nat × Rat × Candidate)) (i : Nat) : Option Candidate :=
  (acc.find? (fun e => e.1 == i)).map (fun e => e.2.2)

/-- Total contribution of one result list to id `i`, starting at rank `r`
(counts every occurrence, matching the Python accumulation). -/
def contribFrom (k : Rat) (i : Nat) : List Candidate → Nat → Rat
  | [], _ => 0
  | d :: ds, r => (if d.id = i then 1 / (k + (r : Rat)) else 0) + contribFrom k i ds (r + 1)

/-! ## Candidate balancer (`balance_candidate_pool`, query_adk.py lines 172-200) -/

/-- `balance_candidate_pool(candidates, target_size, min_per_type)`.
Python computes `remaining = target_size - len(balanced)` (possibly
negative) and only fills when `remaining > 0`, which is exactly the
`balanced.length < target_size` test here. -/
def balance_candidate_pool (candidates : List Candidate)
    (target_size min_per_type : Nat) : List Candidate :=
  let doc_candidates := candidates.filter (fun c => c.kind == "doc")
  let code_candidates := candidates.filter (fun c => c.kind == "code")
  let docs_to_take := max min_per_type (target_size / 2)
  let code_to_take := max min_per_type (target_size / 2)
  let balanced := doc_candidates.take docs_to_take ++ code_candidates.take code_to_take
  if balanced.length < target_size then
    let all_remaining := candidates.filter
      (fun c => !((balanced.map Candidate.id).contains c.id))
    balanced ++ all_remaining.take (target_size - balanced.length)
  else balanced

/-- The Python default `min_per_type = 10`. -/
def defaultMinPerType : Nat := 10

/-! ## Coverage gates (`apply_coverage_gates`, query_adk.py lines 203-252) -/

/-- The sort key `x.get("rerank_score", x.get("rrf_score", 0))`: the rerank
score, when present, supersedes the fusion score. -/
def gateSortKey (c : Candidate) : Rat := c.rerank_score.getD (c.rrf_score.getD 0)

/-- Descending order on `gateSortKey` (`selected.sort(key=..., reverse=True)`). -/
def gateDesc (a b : Candidate) : Prop := gateSortKey b ≤ gateSortKey a

instance : DecidableRel gateDesc := fun a b => inferInstanceAs (Decidable (gateSortKey b ≤ gateSortKey a))

instance : IsTotal Candidate gateDesc := ⟨fun a b => le_total (gateSortKey b) (gateSortKey a)⟩

instance : IsTrans Candidate gateDesc := ⟨fun _ _ _ h1 h2 => le_trans h2 h1⟩

/-- One `if c["id"] not in selected_ids: selected.append(c)` step.  This is
also the retriever's per-point dedup step (retriever.py lines 193-200). -/
def cgAdd (acc : List Candidate) (c : Candidate) : List Candidate :=
  if (acc.map Candidate.id).contains c.id then acc else acc ++ [c]

/-- The fill loop: walk the full candidate list, skip already-selected ids,
and stop once `remaining` slots (an `Int`, possibly negative) run out. -/
def cgFill : List Candidate → List Candidate → Int → List Candidate
  | [], sel, _ => sel
  | c :: cs, sel, remaining =>
    if remaining ≤ 0 then sel
    else if (sel.map Candidate.id).contains c.id then cgFill cs sel remaining
    else cgFill cs (sel ++ [c]) (remaining - 1)

/-- The selection loops of `apply_coverage_gates` before the final sort:
force the top `min_docs` docs then the top `min_code` code (each loop
skipping already-selected ids), then fill remaining slots in input order
(the input list is score-ordered). -/
def gatesFilled (candidates : List Candidate) (top_k min_docs min_code : Nat) :
    List Candidate :=
  let doc_candidates := candidates.filter (fun c => c.kind == "doc")
  let code_candidates := candidates.filter (fun c => c.kind == "code")
  let afterDocs := (doc_candidates.take min_docs).foldl cgAdd []
  let afterCode := (code_candidates.take min_code).foldl cgAdd afterDocs
  cgFill candidates afterCode ((top_k : Int) - (afterCode.length : Int))

/-- `apply_coverage_gates(candidates, top_k, min_docs, min_code)`: force the
top `min_docs` docs then the top `min_code` code, fill remaining slots by
input order, re-sort by score, and emit a warning when either kind falls
short. -/
def apply_coverage_gates (candidates : List Candidate)
    (top_k min_docs min_code : Nat) : List Candidate × List String :=
  let selected := (gatesFilled candidates top_k min_docs min_code).insertionSort gateDesc
  let final_docs := (selected.filter (fun c => c.kind == "doc")).length
  let final_code := (selected.filter (fun c => c.kind == "code")).length
  if final_docs < min_docs ∨ final_code < min_code then
    (selected,
      [s!"Coverage gate: docs={final_docs}, code={final_code} (wanted {min_docs}/{min_code})"])
  else
    (selected, [])

/-! ## Retriever selection and evidence assembly
(`retrieve_adk_evidence`, retriever.py lines 188-343) -/

/-- A reranked candidate as built in retriever.py lines 237-244: the original
point plus the Voyage relevance score. -/
structure ScoredCand where
  point : Candidate
  rerank_score : Rat
deriving DecidableEq, Repr

/-- Descending order on rerank scores (`final_evidence.sort(key=lambda x:
x["rerank_score"], reverse=True)`). -/
def scDesc (a b : ScoredCand) : Prop := b.rerank_score ≤ a.rerank_score

instance : DecidableRel scDesc := fun a b => inferInstanceAs (Decidable (b.rerank_score ≤ a.rerank_score))

instance : IsTotal ScoredCand scDesc := ⟨fun a b => le_total b.rerank_score a.rerank_score⟩

instance : IsTrans ScoredCand scDesc := ⟨fun _ _ _ h1 h2 => le_trans h2 h1⟩

/-- The code-loop append with its `not in selected_indices` check
(retriever.py lines 278-283). -/
def scAdd (acc : List ScoredCand) (c : ScoredCand) : List ScoredCand :=
  if (acc.map (fun x => x.point.id)).contains c.point.id then acc else acc ++ [c]

/-- The retriever's fill loop (retriever.py lines 286-298). -/
def scFill : List ScoredCand → List ScoredCand → Int → List ScoredCand
  | [], sel, _ => sel
  | c :: cs, sel, remaining =>
    if remaining ≤ 0 then sel
    else if (sel.map (fun x => x.point.id)).contains c.point.id then scFill cs sel remaining
    else scFill cs (sel ++ [c]) (remaining - 1)

/-- The retriever's coverage-gated selection (retriever.py lines 246-301):
force up to 3 docs (no id check in the doc loop), then up to 3 code
(with id check), fill to `top_k_final`, and sort by rerank score
descending. -/
def retrieveSelect (scored_candidates : List ScoredCand) (top_k_final : Nat) :
    List ScoredCand :=
  let doc_candidates := scored_candidates.filter (fun c => c.point.kind == "doc")
  let code_candidates := scored_candidates.filter (fun c => c.point.kind == "code")
  let take_docs := min doc_candidates.length 3
  let take_code := min code_candidates.length 3
  let afterDocs := doc_candidates.take take_docs
  let afterCode := (code_candidates.take take_code).foldl scAdd afterDocs
  let filled := scFill scored_candidates afterCode
    ((top_k_final : Int) - (afterCode.length : Int))
  filled.insertionSort scDesc

/-- Python truthiness of `payload.get("start_line")`: `None` and `0` are
falsy. -/
def pyTruthyLine : Option Int → Bool
  | none => false
  | some v => v != 0

/-- How an optional line number renders inside an f-string (`None` prints as
`None`). -/
def optLineStr : Option Int → String
  | none => "None"
  | some v => toString v

/-- The citation string built per evidence item (retriever.py lines 317-330).
The corpus prefix is the literal `adk-docs` / `adk-python`, and the short
ref is the first 7 characters of the payload's commit. -/
def buildCitation (payload : Candidate) : String :=
  let ref := payload.commit.take 7
  let path := payload.path
  let cid := payload.chunk_id
  if payload.kind == "doc" then
    "adk-docs@" ++ ref ++ ":" ++ path ++ "#" ++ cid
  else
    if pyTruthyLine payload.start_line then
      "adk-python@" ++ ref ++ ":" ++ path ++ "#L" ++ optLineStr payload.start_line
        ++ "-L" ++ optLineStr payload.end_line
    else
      "adk-python@" ++ ref ++ ":" ++ path ++ "#" ++ cid

/-- One item of the final evidence list (retriever.py lines 332-343). -/
structure EvidenceItem where
  rank : Nat
  rerank_score : Rat
  source_type : String
  repo : String
  ref : String
  path_or_url : String
  chunk_id : String
  text : String
  citation : String
  citation_confidence : String
deriving DecidableEq, Repr

/-- Build one evidence item from a ranked scored candidate. -/
def mkEvidenceItem (rank : Nat) (sc : ScoredCand) : EvidenceItem :=
  { rank := rank
    rerank_score := sc.rerank_score
    source_type := sc.point.corpus
    repo := sc.point.repo
    ref := sc.point.commit
    path_or_url := sc.point.path
    chunk_id := sc.point.chunk_id
    text := sc.point.text
    citation := buildCitation sc.point
    citation_confidence := if (7 : Rat) / 10 < sc.rerank_score then "high" else "medium" }

/-- Rank assignment `item["rerank_rank"] = i + 1` (retriever.py lines
304-305) fused with the evidence-list construction: items are emitted in
sorted order with ranks `r, r+1, ...`. -/
def evidenceOfScored : Nat → List ScoredCand → List EvidenceItem
  | _, [] => []
  | r, x :: xs => mkEvidenceItem r x :: evidenceOfScored (r + 1) xs

/-- The assembled evidence list: 1-based ranks over the sorted selection. -/
def assembleEvidence (final_evidence : List ScoredCand) : List EvidenceItem :=
  evidenceOfScored 1 final_evidence

/-- Candidate dedup over a hybrid-search response (retriever.py lines
190-200): keep the first point for each id. -/
def dedupCandidates (points : List Candidate) : List Candidate :=
  points.foldl cgAdd []

/-! ## Reranker failure propagation (`search_adk`, query_adk.py lines 439-480)

`search_adk` calls `voyage.rerank(...)` with no `try/except`: the external
call's outcome is embedded as a `RerankOutcome`, and a failure outcome makes
the pipeline return `Except.error` (the Python exception propagates out of
`search_adk`). -/

/-- Outcome of the external `voyage.rerank` call: a permutation with
relevance scores, or an exception. -/
inductive RerankOutcome where
  | ok (results : List (Nat × Rat))
  | failure (msg : String)
deriving DecidableEq, Repr

/-- Stages 4-5 of `search_adk` from the balanced pool on: reranking (when
enabled and the pool is nonempty) followed by the coverage gates with the
default `min_docs = min_code = 3`.  A reranker failure is not caught
anywhere in `search_adk`, so it aborts the query (`Except.error`). -/
def search_adk_finalize (balanced_candidates : List Candidate) (rerank : Bool)
    (outcome : RerankOutcome) (top_k : Nat) (warnings : List String) :
    Except String (List Candidate × List String) :=
  if rerank && !balanced_candidates.isEmpty then
    match outcome with
    | .failure msg => .error msg
    | .ok rs =>
      let reranked := rs.filterMap (fun p =>
        (balanced_candidates.get? p.1).map
          (fun c => { c with rerank_score := some p.2, reranked := true }))
      let gated := apply_coverage_gates reranked top_k 3 3
      .ok (gated.1, warnings ++ gated.2)
  else
    let gated := apply_coverage_gates balanced_candidates top_k 3 3
    .ok (gated.1, warnings ++ gated.2)

/-! ## MCP server boundary (`rag_search` / `rag_search_quick`,
server.py lines 224-288 and 339-395)

The call into the grounding pipeline is embedded as an `Except` value: the
`except Exception` handler turns any pipeline error into a response dict
with an error indicator and empty evidence. -/

/-- One transformed evidence entry (`_transform_result_to_evidence`,
server.py lines 76-113).  `search_adk` result dicts never carry an
`expanded_from` key, so `is_expanded` is `false`. -/
structure EvidenceOut where
  id : String
  corpus : String
  kind : String
  path : String
  lines : String
  text : String
  score : Rat
  is_expanded : Bool
deriving DecidableEq, Repr

/-- `_transform_result_to_evidence(result)`. -/
def transformResult (r : Candidate) : EvidenceOut :=
  { id := toString r.id
    corpus := r.corpus
    kind := r.kind
    path := r.path
    lines :=
      match r.start_line, r.end_line with
      | some s, some e => toString s ++ "-" ++ toString e
      | some s, none => toString s
      | none, _ => ""
    text := r.text
    score := r.rerank_score.getD (r.rrf_score.getD r.score)
    is_expanded := false }

/-- The coverage block of an MCP response. -/
structure McpCoverage where
  doc_count : Nat
  code_count : Nat
  corpora : List String
deriving DecidableEq, Repr

/-- The response dict returned by `rag_search` / `rag_search_quick`. -/
structure McpResponse where
  query : String
  count : Nat
  evidence : List EvidenceOut
  coverage : McpCoverage
  error : Option String
  error_type : Option String
  warnings : List String
deriving DecidableEq, Repr

/-- The parts of the raw grounding-search result the server reads. -/
structure SearchPack where
  results : List Candidate
  coverage : List (String × Nat)
  warnings : List String
deriving DecidableEq, Repr

/-- `rag_search`'s try/except body (server.py lines 224-288): on success,
transform results and build the response; on any pipeline exception
`(type_name, message)`, return the error response instead of raising. -/
def rag_search_result (query : String) (preWarnings : List String)
    (pipeline : Except (String × String) SearchPack) : McpResponse :=
  match pipeline with
  | .ok raw =>
    let evidence := raw.results.map transformResult
    { query := query
      count := evidence.length
      evidence := evidence
      coverage :=
        { doc_count := (evidence.filter (fun e => e.kind == "doc")).length
          code_count := (evidence.filter (fun e => e.kind == "code")).length
          corpora := raw.coverage.map Prod.fst }
      error := none
      error_type := none
      warnings := preWarnings ++ raw.warnings }
  | .error err =>
    { query := query
      count := 0
      evidence := []
      coverage := { doc_count := 0, code_count := 0, corpora := [] }
      error := some err.2
      error_type := some err.1
      warnings := preWarnings ++ [s!"Search failed: {err.2}"] }

/-- `rag_search_quick`'s try/except body (server.py lines 339-395); its
error branch is identical to `rag_search`'s. -/
def rag_search_quick_result (query : String) (preWarnings : List String)
    (pipeline : Except (String × String) SearchPack) : McpResponse :=
  match pipeline with
  | .ok raw =>
    let evidence := raw.results.map transformResult
    { query := query
      count := evidence.length
      evidence := evidence
      coverage :=
        { doc_count := (evidence.filter (fun e => e.kind == "doc")).length
          code_count := (evidence.filter (fun e => e.kind == "code")).length
          corpora := raw.coverage.map Prod.fst }
      error := none
      error_type := none
      warnings := preWarnings ++ raw.warnings }
  | .error err =>
    { query := query
      count := 0
      evidence := []
      coverage := { doc_count := 0, code_count := 0, corpora := [] }
      error := some err.2
      error_type := some err.1
      warnings := preWarnings ++ [s!"Search failed: {err.2}"] }

/-! ## Concrete inputs used by witnesses and counterexamples -/

/-- A minimal candidate with the given id and kind. -/
def mkCand (i : Nat) (kd : String) : Candidate :=
  { id := i, kind := kd, corpus := "", repo := "", path := "", commit := ""
    chunk_id := "", start_line := none, end_line := none, text := ""
    score := 0, rrf_score := none, rerank_score := none, reranked := false }

/-- 3 docs and 2 code candidates: enough of each kind for a target of 4,
yet the default `min_per_type = 10` floor makes the balancer keep all 5. -/
def cexC1 : List Candidate :=
  [mkCand 0 "doc", mkCand 1 "doc", mkCand 2 "doc", mkCand 3 "code", mkCand 4 "code"]

/-- 2 docs and 2 code candidates with distinct ids. -/
def wexC1 : List Candidate :=
  [mkCand 0 "doc", mkCand 1 "doc", mkCand 2 "code", mkCand 3 "code"]

/-- One doc and one code candidate with distinct ids. -/
def wexC2 : List Candidate := [mkCand 0 "doc", mkCand 1 "code"]

/-- A nonempty balanced pool. -/
def wexC3 : List Candidate := [mkCand 0 "doc"]

/-- Two ranked lists sharing id 2: id 1 ranks first in list one only. -/
def wexC4 : List (List Candidate) :=
  [[mkCand 1 "doc", mkCand 2 "code"], [mkCand 2 "code"]]

/-- A doc-kind payload whose corpus name differs from the hardcoded
citation prefix. -/
def cexC9 : Candidate :=
  { mkCand 6 "doc" with
    corpus := "adk_docs", commit := "abcdef1234", path := "docs/a.md", chunk_id := "c6" }

/-- A code-kind payload with a line range. -/
def wexC9 : Candidate :=
  { mkCand 5 "code" with
    commit := "abcdef1234", path := "src/m.py", chunk_id := "c9",
    start_line := some 10, end_line := some 20 }

/-- All words produced by `wordsAux` are nonempty and whitespace-free. -/
theorem wordsAux_good : ∀ (l acc : List Char), noSpace acc →
    ∀ w ∈ wordsAux l acc, w ≠ [] ∧ noSpace w := by
  intro l
  induction l with
  | nil =>
    intro acc hacc w hw
    by_cases h : acc = []
    · simp [wordsAux, h] at hw
    · simp [wordsAux, h] at hw
      subst hw
      refine ⟨by simpa using h, ?_⟩
      intro c hc
      exact hacc c (List.mem_reverse.mp hc)
  | cons c cs ih =>
    intro acc hacc w hw
    by_cases hsp : isSpaceChar c
    · by_cases h : acc = []
      · simp [wordsAux, hsp, h] at hw
        exact ih [] (by intro x hx; cases hx) w hw
      · simp [wordsAux, hsp, h] at hw
        rcases hw with hw | hw
        · subst hw
          refine ⟨by simpa using h, ?_⟩
          intro x hx
          exact hacc x (List.mem_reverse.mp hx)
        · exact ih [] (by intro x hx; cases hx) w hw
    · simp [wordsAux, hsp] at hw
      refine ih (c :: acc) ?_ w hw
      intro x hx
      rcases List.mem_cons.mp hx with rfl | hx
      · simpa using hsp
      · exact hacc x hx

/-- Pushing a whitespace-free word through `wordsAux` just moves it into the
accumulator. -/
theorem wordsAux_append (w : List Char) (hw : noSpace w) :
    ∀ (rest acc : List Char), wordsAux (w ++ rest) acc = wordsAux rest (w.reverse ++ acc) := by
  induction w with
  | nil => intro rest acc; simp
  | cons c cs ih =>
    intro rest acc
    have hc : isSpaceChar c = false := hw c (List.mem_cons_self c cs)
    have hcs : noSpace cs := fun x hx => hw x (List.mem_cons_of_mem c hx)
    simp only [List.cons_append, wordsAux, hc, Bool.false_eq_true, if_false,
      List.append_eq]
    rw [ih hcs rest (c :: acc)]
    simp

/-- `wordsAux` recovers the word list from a single-space join of good words. -/
theorem wordsAux_joinWords : ∀ ws : List (List Char),
    (∀ w ∈ ws, w ≠ [] ∧ noSpace w) → wordsAux (joinWords ws) [] = ws := by
  intro ws
  induction ws with
  | nil => intro _; rfl
  | cons w ws ih =>
    intro hgood
    have hw := hgood w (List.mem_cons_self w ws)
    cases ws with
    | nil =>
      have hj : joinWords [w] = w := rfl
      have hstep := wordsAux_append w hw.2 [] []
      rw [List.append_nil] at hstep
      rw [hj, hstep]
      simp [wordsAux, hw.1]
    | cons v vs =>
      have hj : joinWords (w :: v :: vs) = w ++ ' ' :: joinWords (v :: vs) := rfl
      rw [hj, wordsAux_append w hw.2 (' ' :: joinWords (v :: vs)) []]
      have hsp : isSpaceChar ' ' = true := by decide
      have hwr : w.reverse ++ [] ≠ [] := by
        simp only [List.append_nil, ne_eq, List.reverse_eq_nil_iff]
        exact hw.1
      simp only [wordsAux, hsp, if_true, List.append_nil]
      rw [if_neg (by simpa using hw.1)]
      rw [ih (fun x hx => hgood x (List.mem_cons_of_mem w hx))]
      simp

/-- The normalizer is idempotent on character lists. -/
theorem normalizeChars_idem (l : List Char) :
    normalizeChars (normalizeChars l) = normalizeChars l := by
  unfold normalizeChars
  rw [wordsAux_joinWords (wordsAux l []) (wordsAux_good l [] (by intro c hc; cases hc))]

/-- Joining good words never produces the empty list unless there are no words. -/
theorem joinWords_ne_nil (v : List Char) (vs : List (List Char)) (hv : v ≠ []) :
    joinWords (v :: vs) ≠ [] := by
  cases vs with
  | nil => simpa [joinWords] using hv
  | cons u us =>
    have hj : joinWords (v :: u :: us) = v ++ ' ' :: joinWords (u :: us) := rfl
    rw [hj]
    simp

/-- Every character of a good-word join is either a word character or the
single separating space. -/
theorem joinWords_mem (ws : List (List Char)) (hgood : ∀ w ∈ ws, w ≠ [] ∧ noSpace w) :
    ∀ c ∈ joinWords ws, isSpaceChar c = false ∨ c = ' ' := by
  induction ws with
  | nil => intro c hc; cases hc
  | cons w ws ih =>
    intro c hc
    cases ws with
    | nil =>
      exact Or.inl ((hgood w (List.mem_cons_self w [])).2 c hc)
    | cons v vs =>
      have hj : joinWords (w :: v :: vs) = w ++ ' ' :: joinWords (v :: vs) := rfl
      rw [hj] at hc
      rcases List.mem_append.mp hc with hc | hc
      · exact Or.inl ((hgood w (List.mem_cons_self w _)).2 c hc)
      · rcases List.mem_cons.mp hc with rfl | hc
        · exact Or.inr rfl
        · exact ih (fun x hx => hgood x (List.mem_cons_of_mem w hx)) c hc

/-- The head of a good-word join is not whitespace. -/
theorem joinWords_head (ws : List (List Char)) (hgood : ∀ w ∈ ws, w ≠ [] ∧ noSpace w) :
    ∀ c, (joinWords ws).head? = some c → isSpaceChar c = false := by
  intro c hc
  cases ws with
  | nil => cases hc
  | cons w ws =>
    have hw := hgood w (List.mem_cons_self w ws)
    have hhead : (joinWords (w :: ws)).head? = w.head? := by
      cases ws with
      | nil => rfl
      | cons v vs =>
        have hj : joinWords (w :: v :: vs) = w ++ ' ' :: joinWords (v :: vs) := rfl
        rw [hj]
        cases w with
        | nil => exact absurd rfl hw.1
        | cons a as => rfl
    rw [hhead] at hc
    exact hw.2 c (List.mem_of_mem_head? hc)

/-- The last character of a good-word join is not whitespace. -/
theorem joinWords_last (ws : List (List Char)) (hgood : ∀ w ∈ ws, w ≠ [] ∧ noSpace w) :
    ∀ c, (joinWords ws).getLast? = some c → isSpaceChar c = false := by
  induction ws with
  | nil => intro c hc; cases hc
  | cons w ws ih =>
    intro c hc
    have hw := hgood w (List.mem_cons_self w ws)
    cases ws with
    | nil =>
      exact hw.2 c (List.mem_of_mem_getLast? hc)
    | cons v vs =>
      have hj : joinWords (w :: v :: vs) = w ++ ' ' :: joinWords (v :: vs) := rfl
      rw [hj] at hc
      have hvs := hgood v (List.mem_cons_of_mem w (List.mem_cons_self v vs))
      have hne : joinWords (v :: vs) ≠ [] := joinWords_ne_nil v vs hvs.1
      have h1 : (w ++ ' ' :: joinWords (v :: vs)).getLast? =
          (' ' :: joinWords (v :: vs)).getLast? :=
        List.getLast?_append_of_ne_nil w (by simp)
      have h2 : (' ' :: joinWords (v :: vs)).getLast? = (joinWords (v :: vs)).getLast? := by
        have hsplit : (' ' :: joinWords (v :: vs)) = [' '] ++ joinWords (v :: vs) := rfl
        rw [hsplit, List.getLast?_append_of_ne_nil [' '] hne]
      rw [h1, h2] at hc
      exact ih (fun x hx => hgood x (List.mem_cons_of_mem w hx)) c hc

/-- Adjacent characters of a whitespace-free word trivially satisfy the
no-double-whitespace relation. -/
theorem chain_of_noSpace (w : List Char) (hw : noSpace w) :
    w.Chain' (fun a b => isSpaceChar a = false ∨ isSpaceChar b = false) := by
  induction w with
  | nil => exact List.chain'_nil
  | cons a as ih =>
    rw [List.chain'_cons']
    refine ⟨fun h _ => Or.inl (hw a (List.mem_cons_self a as)), ?_⟩
    exact ih (fun x hx => hw x (List.mem_cons_of_mem a hx))

/-- A good-word join never contains two adjacent whitespace characters. -/
theorem joinWords_chain (ws : List (List Char)) (hgood : ∀ w ∈ ws, w ≠ [] ∧ noSpace w) :
    (joinWords ws).Chain' (fun a b => isSpaceChar a = false ∨ isSpaceChar b = false) := by
  induction ws with
  | nil => exact List.chain'_nil
  | cons w ws ih =>
    have hw := hgood w (List.mem_cons_self w ws)
    cases ws with
    | nil => exact chain_of_noSpace w hw.2
    | cons v vs =>
      have hj : joinWords (w :: v :: vs) = w ++ ' ' :: joinWords (v :: vs) := rfl
      rw [hj, List.chain'_append]
      have hrest := ih (fun x hx => hgood x (List.mem_cons_of_mem w hx))
      have hvs := hgood v (List.mem_cons_of_mem w (List.mem_cons_self v vs))
      refine ⟨chain_of_noSpace w hw.2, ?_, ?_⟩
      · rw [List.chain'_cons']
        refine ⟨?_, hrest⟩
        intro y hy
        exact Or.inr (joinWords_head (v :: vs)
          (fun x hx => hgood x (List.mem_cons_of_mem w hx)) y hy)
      · intro x hx y hy
        exact Or.inl (hw.2 x (List.mem_of_mem_getLast? hx))

/-! ## RRF accumulator lemmas -/

/-- `accScore` on the empty accumulator. -/
theorem accScore_nil (i : Nat) : accScore [] i = 0 := rfl

/-- `accScore` reads the head entry when its key matches. -/
theorem accScore_cons_pos (e : Nat × Rat × Candidate) (es : List (Nat × Rat × Candidate))
    (i : Nat) (h : e.1 = i) : accScore (e :: es) i = e.2.1 := by
  unfold accScore
  rw [List.find?_cons_of_pos es (by simp [h])]

/-- `accScore` skips the head entry when its key differs. -/
theorem accScore_cons_neg (e : Nat × Rat × Candidate) (es : List (Nat × Rat × Candidate))
    (i : Nat) (h : ¬e.1 = i) : accScore (e :: es) i = accScore es i := by
  unfold accScore
  rw [List.find?_cons_of_neg es (by simpa using h)]

/-- `accPayload` on the empty accumulator. -/
theorem accPayload_nil (i : Nat) : accPayload [] i = none := rfl

/-- `accPayload` reads the head entry when its key matches. -/
theorem accPayload_cons_pos (e : Nat × Rat × Candidate) (es : List (Nat × Rat × Candidate))
    (i : Nat) (h : e.1 = i) : accPayload (e :: es) i = some e.2.2 := by
  unfold accPayload
  rw [List.find?_cons_of_pos es (by simp [h])]
  rfl

/-- `accPayload` skips the head entry when its key differs. -/
theorem accPayload_cons_neg (e : Nat × Rat × Candidate) (es : List (Nat × Rat × Candidate))
    (i : Nat) (h : ¬e.1 = i) : accPayload (e :: es) i = accPayload es i := by
  unfold accPayload
  rw [List.find?_cons_of_neg es (by simpa using h)]

/-- `rrfUpdate` on a matching head entry. -/
theorem rrfUpdate_cons_eq (k : Rat) (r : Nat) (d : Candidate) (e : Nat × Rat × Candidate)
    (es : List (Nat × Rat × Candidate)) (h : e.1 = d.id) :
    rrfUpdate k r d (e :: es) = (e.1, e.2.1 + 1 / (k + (r : Rat)), e.2.2) :: es := by
  simp [rrfUpdate, h]

/-- `rrfUpdate` on a non-matching head entry. -/
theorem rrfUpdate_cons_ne (k : Rat) (r : Nat) (d : Candidate) (e : Nat × Rat × Candidate)
    (es : List (Nat × Rat × Candidate)) (h : ¬e.1 = d.id) :
    rrfUpdate k r d (e :: es) = e :: rrfUpdate k r d es := by
  simp [rrfUpdate, h]

/-- One update step adds exactly the rank contribution of the processed
document to the accumulated score of its id. -/
theorem accScore_update (k : Rat) (r : Nat) (d : Candidate) (i : Nat) :
    ∀ acc, accScore (rrfUpdate k r d acc) i
      = accScore acc i + (if d.id = i then 1 / (k + (r : Rat)) else 0) := by
  intro acc
  induction acc with
  | nil =>
    by_cases h : d.id = i
    · rw [show rrfUpdate k r d [] = [(d.id, 1 / (k + (r : Rat)), d)] from rfl,
        accScore_cons_pos _ _ _ h, accScore_nil, if_pos h, zero_add]
    · rw [show rrfUpdate k r d [] = [(d.id, 1 / (k + (r : Rat)), d)] from rfl,
        accScore_cons_neg _ _ _ h, accScore_nil, if_neg h, add_zero]
  | cons e es ih =>
    by_cases he : e.1 = d.id
    · rw [rrfUpdate_cons_eq k r d e es he]
      by_cases hi : e.1 = i
      · have hdi : d.id = i := he ▸ hi
        rw [accScore_cons_pos (e.1, e.2.1 + 1 / (k + (r : Rat)), e.2.2) es i hi,
          accScore_cons_pos e es i hi, if_pos hdi]
      · have hdi : ¬d.id = i := fun hh => hi (he.trans hh)
        rw [accScore_cons_neg (e.1, e.2.1 + 1 / (k + (r : Rat)), e.2.2) es i hi,
          accScore_cons_neg e es i hi, if_neg hdi, add_zero]
    · rw [rrfUpdate_cons_ne k r d e es he]
      by_cases hi : e.1 = i
      · have hdi : ¬d.id = i := fun hh => he (hi.trans hh.symm)
        rw [accScore_cons_pos e (rrfUpdate k r d es) i hi, accScore_cons_pos e es i hi,
          if_neg hdi, add_zero]
      · rw [accScore_cons_neg e (rrfUpdate k r d es) i hi, accScore_cons_neg e es i hi, ih]

/-- One update step records the processed document as payload only when its
id is new. -/
theorem accPayload_update (k : Rat) (r : Nat) (d : Candidate) (i : Nat) :
    ∀ acc, accPayload (rrfUpdate k r d acc) i
      = (accPayload acc i).or (if d.id = i then some d else none) := by
  intro acc
  induction acc with
  | nil =>
    by_cases h : d.id = i
    · rw [show rrfUpdate k r d [] = [(d.id, 1 / (k + (r : Rat)), d)] from rfl,
        accPayload_cons_pos _ _ _ h, accPayload_nil, if_pos h, Option.none_or]
    · rw [show rrfUpdate k r d [] = [(d.id, 1 / (k + (r : Rat)), d)] from rfl,
        accPayload_cons_neg _ _ _ h, accPayload_nil, if_neg h, Option.or_none]
  | cons e es ih =>
    by_cases he : e.1 = d.id
    · rw [rrfUpdate_cons_eq k r d e es he]
      by_cases hi : e.1 = i
      · rw [accPayload_cons_pos (e.1, e.2.1 + 1 / (k + (r : Rat)), e.2.2) es i hi,
          accPayload_cons_pos e es i hi]
        rfl
      · have hdi : ¬d.id = i := fun hh => hi (he.trans hh)
        rw [accPayload_cons_neg (e.1, e.2.1 + 1 / (k + (r : Rat)), e.2.2) es i hi,
          accPayload_cons_neg e es i hi, if_neg hdi, Option.or_none]
    · rw [rrfUpdate_cons_ne k r d e es he]
      by_cases hi : e.1 = i
      · rw [accPayload_cons_pos e (rrfUpdate k r d es) i hi, accPayload_cons_pos e es i hi]
        rfl
      · rw [accPayload_cons_neg e (rrfUpdate k r d es) i hi, accPayload_cons_neg e es i hi, ih]

/-- The keys after one update: unchanged when the id was present, appended
otherwise. -/
theorem rrfUpdate_ids (k : Rat) (r : Nat) (d : Candidate) :
    ∀ acc, (rrfUpdate k r d acc).map (fun e => e.1)
      = if d.id ∈ acc.map (fun e => e.1) then acc.map (fun e => e.1)
        else acc.map (fun e => e.1) ++ [d.id] := by
  intro acc
  induction acc with
  | nil => simp [rrfUpdate]
  | cons e es ih =>
    by_cases he : e.1 = d.id
    · simp [rrfUpdate, he]
    · have h1 : rrfUpdate k r d (e :: es) = e :: rrfUpdate k r d es := by
        simp [rrfUpdate, he]
      rw [h1]
      have hne : ¬d.id = e.1 := fun hh => he hh.symm
      by_cases hm : d.id ∈ es.map (fun e => e.1)
      · simp [ih, hm, hne]
      · simp [ih, hm, hne]

/-- Updates preserve key distinctness. -/
theorem rrfUpdate_nodup (k : Rat) (r : Nat) (d : Candidate) (acc : List (Nat × Rat × Candidate))
    (h : (acc.map (fun e => e.1)).Nodup) :
    ((rrfUpdate k r d acc).map (fun e => e.1)).Nodup := by
  rw [rrfUpdate_ids]
  by_cases hm : d.id ∈ acc.map (fun e => e.1)
  · simpa [hm] using h
  · simp only [hm, if_false]
    rw [List.nodup_append]
    refine ⟨h, List.nodup_singleton _, ?_⟩
    intro x hx hx'
    rw [List.mem_singleton] at hx'
    exact hm (hx' ▸ hx)

/-- Updates preserve the invariant that each stored payload carries its key
as id. -/
theorem rrfUpdate_payload_id (k : Rat) (r : Nat) (d : Candidate)
    (acc : List (Nat × Rat × Candidate)) (h : ∀ e ∈ acc, e.2.2.id = e.1) :
    ∀ e ∈ rrfUpdate k r d acc, e.2.2.id = e.1 := by
  induction acc with
  | nil =>
    intro e he
    simp [rrfUpdate] at he
    subst he
    rfl
  | cons a as ih =>
    intro e he
    by_cases ha : a.1 = d.id
    · rw [rrfUpdate_cons_eq k r d a as ha] at he
      rcases List.mem_cons.mp he with rfl | he
      · show a.2.2.id = a.1
        exact h a (List.mem_cons_self a as)
      · exact h e (List.mem_cons_of_mem a he)
    · rw [rrfUpdate_cons_ne k r d a as ha] at he
      rcases List.mem_cons.mp he with rfl | he
      · exact h e (List.mem_cons_self e as)
      · exact ih (fun x hx => h x (List.mem_cons_of_mem a hx)) e he

/-- Processing a result list adds its per-occurrence contributions to the
score of every id. -/
theorem accScore_process (k : Rat) (i : Nat) :
    ∀ (l : List Candidate) (r : Nat) (acc : List (Nat × Rat × Candidate)),
      accScore (rrfProcess k l r acc) i = accScore acc i + contribFrom k i l r := by
  intro l
  induction l with
  | nil => intro r acc; simp [rrfProcess, contribFrom]
  | cons d ds ih =>
    intro r acc
    show accScore (rrfProcess k ds (r + 1) (rrfUpdate k r d acc)) i = _
    rw [ih (r + 1) (rrfUpdate k r d acc), accScore_update]
    show _ = accScore acc i + ((if d.id = i then 1 / (k + (r : Rat)) else 0) + contribFrom k i ds (r + 1))
    ring

/-- Processing a result list records, for a fresh id, the first matching
document of the list as payload. -/
theorem accPayload_process (k : Rat) (i : Nat) :
    ∀ (l : List Candidate) (r : Nat) (acc : List (Nat × Rat × Candidate)),
      accPayload (rrfProcess k l r acc) i
        = (accPayload acc i).or (l.find? (fun c => c.id == i)) := by
  intro l
  induction l with
  | nil => intro r acc; simp [rrfProcess]
  | cons d ds ih =>
    intro r acc
    show accPayload (rrfProcess k ds (r + 1) (rrfUpdate k r d acc)) i = _
    rw [ih (r + 1) (rrfUpdate k r d acc), accPayload_update, Option.or_assoc]
    by_cases h : d.id = i
    · rw [if_pos h, List.find?_cons_of_pos ds (by simp [h])]
      simp
    · rw [if_neg h, Option.none_or, List.find?_cons_of_neg ds (by simp [h])]

/-- Processing preserves key distinctness. -/
theorem rrfProcess_nodup (k : Rat) :
    ∀ (l : List Candidate) (r : Nat) (acc : List (Nat × Rat × Candidate)),
      (acc.map (fun e => e.1)).Nodup → ((rrfProcess k l r acc).map (fun e => e.1)).Nodup := by
  intro l
  induction l with
  | nil => intro r acc h; exact h
  | cons d ds ih =>
    intro r acc h
    exact ih (r + 1) (rrfUpdate k r d acc) (rrfUpdate_nodup k r d acc h)

/-- Processing preserves the payload-id invariant. -/
theorem rrfProcess_payload_id (k : Rat) :
    ∀ (l : List Candidate) (r : Nat) (acc : List (Nat × Rat × Candidate)),
      (∀ e ∈ acc, e.2.2.id = e.1) → ∀ e ∈ rrfProcess k l r acc, e.2.2.id = e.1 := by
  intro l
  induction l with
  | nil => intro r acc h; exact h
  | cons d ds ih =>
    intro r acc h
    exact ih (r + 1) (rrfUpdate k r d acc) (rrfUpdate_payload_id k r d acc h)

/-- The whole accumulation sums per-list contributions. -/
theorem accScore_accum_general (k : Rat) (i : Nat) :
    ∀ (lists : List (List Candidate)) (acc : List (Nat × Rat × Candidate)),
      accScore (lists.foldl (fun acc l => rrfProcess k l 1 acc) acc) i
        = accScore acc i + (lists.map (fun l => contribFrom k i l 1)).sum := by
  intro lists
  induction lists with
  | nil => intro acc; simp
  | cons l ls ih =>
    intro acc
    rw [List.foldl_cons, ih, accScore_process]
    rw [List.map_cons, List.sum_cons]
    ring

/-- The whole accumulation keeps the globally first-seen payload per id. -/
theorem accPayload_accum_general (k : Rat) (i : Nat) :
    ∀ (lists : List (List Candidate)) (acc : List (Nat × Rat × Candidate)),
      accPayload (lists.foldl (fun acc l => rrfProcess k l 1 acc) acc) i
        = (accPayload acc i).or (lists.flatten.find? (fun c => c.id == i)) := by
  intro lists
  induction lists with
  | nil => intro acc; simp
  | cons l ls ih =>
    intro acc
    rw [List.foldl_cons, ih, accPayload_process, Option.or_assoc, List.flatten_cons,
      List.find?_append]

/-- The accumulator's keys are pairwise distinct. -/
theorem rrfAccum_nodup (k : Rat) (lists : List (List Candidate)) :
    ((rrfAccum k lists).map (fun e => e.1)).Nodup := by
  unfold rrfAccum
  have h : ∀ (ls : List (List Candidate)) (acc : List (Nat × Rat × Candidate)),
      (acc.map (fun e => e.1)).Nodup →
      ((ls.foldl (fun acc l => rrfProcess k l 1 acc) acc).map (fun e => e.1)).Nodup := by
    intro ls
    induction ls with
    | nil => intro acc h; exact h
    | cons l rest ih =>
      intro acc h
      exact ih (rrfProcess k l 1 acc) (rrfProcess_nodup k l 1 acc h)
  exact h lists [] (by simp)

/-- Every accumulator payload carries its key as id. -/
theorem rrfAccum_payload_id (k : Rat) (lists : List (List Candidate)) :
    ∀ e ∈ rrfAccum k lists, e.2.2.id = e.1 := by
  unfold rrfAccum
  have h : ∀ (ls : List (List Candidate)) (acc : List (Nat × Rat × Candidate)),
      (∀ e ∈ acc, e.2.2.id = e.1) →
      ∀ e ∈ ls.foldl (fun acc l => rrfProcess k l 1 acc) acc, e.2.2.id = e.1 := by
    intro ls
    induction ls with
    | nil => intro acc h; exact h
    | cons l rest ih =>
      intro acc h
      exact ih (rrfProcess k l 1 acc) (rrfProcess_payload_id k l 1 acc h)
  exact h lists [] (by intro e he; cases he)

/-- Ids absent from a list contribute nothing. -/
theorem contribFrom_zero (k : Rat) (i : Nat) :
    ∀ (l : List Candidate) (r : Nat), (∀ c ∈ l, c.id ≠ i) → contribFrom k i l r = 0 := by
  intro l
  induction l with
  | nil => intro r _; rfl
  | cons d ds ih =>
    intro r h
    show (if d.id = i then 1 / (k + (r : Rat)) else 0) + contribFrom k i ds (r + 1) = 0
    rw [if_neg (h d (List.mem_cons_self d ds)),
      ih (r + 1) (fun c hc => h c (List.mem_cons_of_mem d hc)), add_zero]

/-- For a result list without duplicate ids, the accumulated contribution is
exactly the spec's single rank term. -/
theorem contribFrom_eq_rank (k : Rat) (i : Nat) :
    ∀ (l : List Candidate) (r : Nat), (l.map Candidate.id).Nodup →
      contribFrom k i l r
        = (match rankOfId i l r with
           | some j => 1 / (k + (j : Rat))
           | none => 0) := by
  intro l
  induction l with
  | nil => intro r _; rfl
  | cons d ds ih =>
    intro r hnd
    rw [List.map_cons, List.nodup_cons] at hnd
    by_cases h : d.id = i
    · have hds : ∀ c ∈ ds, c.id ≠ i := by
        intro c hc hci
        apply hnd.1
        have hmem : c.id ∈ ds.map Candidate.id := List.mem_map_of_mem Candidate.id hc
        rw [hci, ← h] at hmem
        exact hmem
      show (if d.id = i then 1 / (k + (r : Rat)) else 0) + contribFrom k i ds (r + 1) = _
      rw [if_pos h, contribFrom_zero k i ds (r + 1) hds, add_zero]
      simp [rankOfId, h]
    · show (if d.id = i then 1 / (k + (r : Rat)) else 0) + contribFrom k i ds (r + 1) = _
      rw [if_neg h, zero_add, ih (r + 1) hnd.2]
      simp [rankOfId, h]

/-- For ranked (duplicate-free) lists the accumulated score is the spec's
RRF sum. -/
theorem accScore_eq_spec (k : Rat) (i : Nat) (lists : List (List Candidate))
    (hnd : ∀ l ∈ lists, (l.map Candidate.id).Nodup) :
    accScore (rrfAccum k lists) i = rrfSpecScore k i lists := by
  unfold rrfAccum rrfSpecScore
  rw [accScore_accum_general]
  have hmap : lists.map (fun l => contribFrom k i l 1) = lists.map (rankContrib k i) := by
    apply List.map_congr_left
    intro l hl
    rw [contribFrom_eq_rank k i l 1 (hnd l hl)]
    rfl
  rw [hmap]
  simp [accScore]

/-- Members of a key-distinct association list are found by their own key. -/
theorem find_self_of_nodup :
    ∀ (acc : List (Nat × Rat × Candidate)), ((acc.map (fun e => e.1)).Nodup) →
      ∀ e ∈ acc, acc.find? (fun x => x.1 == e.1) = some e := by
  intro acc
  induction acc with
  | nil => intro _ e he; cases he
  | cons a as ih =>
    intro hnd e he
    rw [List.map_cons, List.nodup_cons] at hnd
    rcases List.mem_cons.mp he with rfl | he
    · exact List.find?_cons_of_pos as (by simp)
    · have hne : a.1 ≠ e.1 := by
        intro h
        exact hnd.1 (h ▸ List.mem_map_of_mem (fun e => e.1) he)
      rw [List.find?_cons_of_neg as (by simpa using hne)]
      exact ih hnd.2 e he

/-- The fused output never repeats a candidate identifier, for every input. -/
theorem rrf_output_nodup (results_lists : List (List Candidate)) (k : Rat) :
    ((reciprocal_rank_fusion results_lists k).map Candidate.id).Nodup := by
  unfold reciprocal_rank_fusion
  rw [List.map_map]
  have hperm := (List.perm_insertionSort rrfDesc (rrfAccum k results_lists)).map
    (fun e : Nat × Rat × Candidate => e.1)
  have hcongr :
      ((rrfAccum k results_lists).insertionSort rrfDesc).map
        ((Candidate.id ∘ fun e : Nat × Rat × Candidate => { e.2.2 with rrf_score := some e.2.1 }))
      = ((rrfAccum k results_lists).insertionSort rrfDesc).map (fun e => e.1) := by
    apply List.map_congr_left
    intro e he
    have hmem : e ∈ rrfAccum k results_lists := (List.mem_insertionSort rrfDesc).mp he
    exact rrfAccum_payload_id k results_lists e hmem
  rw [hcongr]
  exact hperm.nodup_iff.mpr (rrfAccum_nodup k results_lists)

/-- Every fused candidate carries the spec's RRF score and the first-seen
payload of its id (traversal order: lists in order, each left to right). -/
theorem rrf_output_spec (results_lists : List (List Candidate)) (k : Rat)
    (hnd : ∀ l ∈ results_lists, (l.map Candidate.id).Nodup) :
    ∀ c ∈ reciprocal_rank_fusion results_lists k,
      c.rrf_score = some (rrfSpecScore k c.id results_lists)
      ∧ ∃ c₀, results_lists.flatten.find? (fun d => d.id == c.id) = some c₀
          ∧ c = { c₀ with rrf_score := some (rrfSpecScore k c.id results_lists) } := by
  intro c hc
  unfold reciprocal_rank_fusion at hc
  rcases List.mem_map.mp hc with ⟨e, he, hce⟩
  have hmem : e ∈ rrfAccum k results_lists := (List.mem_insertionSort rrfDesc).mp he
  have hid : e.2.2.id = e.1 := rrfAccum_payload_id k results_lists e hmem
  have hfind : (rrfAccum k results_lists).find? (fun x => x.1 == e.1) = some e :=
    find_self_of_nodup (rrfAccum k results_lists) (rrfAccum_nodup k results_lists) e hmem
  have hscore : accScore (rrfAccum k results_lists) e.1 = e.2.1 := by
    unfold accScore
    rw [hfind]
  have hpayload : accPayload (rrfAccum k results_lists) e.1 = some e.2.2 := by
    unfold accPayload
    rw [hfind]
    rfl
  have hspec : e.2.1 = rrfSpecScore k e.1 results_lists := by
    rw [← hscore]
    exact accScore_eq_spec k e.1 results_lists hnd
  have hflat : results_lists.flatten.find? (fun d => d.id == e.1) = some e.2.2 := by
    have := accPayload_accum_general k e.1 results_lists []
    rw [accPayload_nil, Option.none_or] at this
    rw [← this]
    exact hpayload
  have hcid : c.id = e.1 := by
    rw [← hce]
    exact hid
  constructor
  · rw [hcid, ← hspec, ← hce]
  · refine ⟨e.2.2, ?_, ?_⟩
    · rw [hcid]
      exact hflat
    · rw [hcid, ← hspec, ← hce]

/-! ## Selection-loop lemmas (coverage gates, balancer, dedup) -/

/-- When the combined ids are distinct, the guarded append loop appends
everything. -/
theorem foldl_cgAdd_append :
    ∀ (rest acc : List Candidate), ((acc ++ rest).map Candidate.id).Nodup →
      rest.foldl cgAdd acc = acc ++ rest := by
  intro rest
  induction rest with
  | nil => intro acc _; simp
  | cons c cs ih =>
    intro acc hnd
    have hmem : c.id ∉ acc.map Candidate.id := by
      rw [List.map_append, List.nodup_append] at hnd
      intro hc
      exact hnd.2.2 hc (by simp)
    have hstep : cgAdd acc c = acc ++ [c] := by
      unfold cgAdd
      rw [if_neg (by simpa using hmem)]
    show cs.foldl cgAdd (cgAdd acc c) = acc ++ c :: cs
    rw [hstep, ih (acc ++ [c]) (by simpa using hnd)]
    simp

/-- Elements produced by the guarded append loop come from the accumulator
or the processed list. -/
theorem foldl_cgAdd_mem :
    ∀ (rest acc : List Candidate) (c : Candidate),
      c ∈ rest.foldl cgAdd acc → c ∈ acc ∨ c ∈ rest := by
  intro rest
  induction rest with
  | nil => intro acc c hc; exact Or.inl hc
  | cons x xs ih =>
    intro acc c hc
    rcases ih (cgAdd acc x) c hc with hc' | hc'
    · unfold cgAdd at hc'
      by_cases hx : (acc.map Candidate.id).contains x.id
      · rw [if_pos hx] at hc'
        exact Or.inl hc'
      · rw [if_neg hx] at hc'
        rcases List.mem_append.mp hc' with hc'' | hc''
        · exact Or.inl hc''
        · rw [List.mem_singleton] at hc''
          exact Or.inr (by rw [hc'']; exact List.mem_cons_self x xs)
    · exact Or.inr (List.mem_cons_of_mem x hc')

/-- The guarded append loop preserves id distinctness of the selection. -/
theorem foldl_cgAdd_nodup :
    ∀ (rest acc : List Candidate), ((acc.map Candidate.id)).Nodup →
      ((rest.foldl cgAdd acc).map Candidate.id).Nodup := by
  intro rest
  induction rest with
  | nil => intro acc h; exact h
  | cons x xs ih =>
    intro acc h
    refine ih (cgAdd acc x) ?_
    unfold cgAdd
    by_cases hx : (acc.map Candidate.id).contains x.id
    · rw [if_pos hx]; exact h
    · rw [if_neg hx]
      rw [List.map_append, List.nodup_append]
      refine ⟨h, by simp, ?_⟩
      intro a ha ha'
      rw [List.map_singleton, List.mem_singleton] at ha'
      subst ha'
      exact hx (by simpa using ha)

/-- The fill loop only ever appends to the current selection. -/
theorem cgFill_extends :
    ∀ (cs sel : List Candidate) (rem : Int), ∃ extra, cgFill cs sel rem = sel ++ extra := by
  intro cs
  induction cs with
  | nil => intro sel rem; exact ⟨[], by simp [cgFill]⟩
  | cons c cs ih =>
    intro sel rem
    unfold cgFill
    by_cases h0 : rem ≤ 0
    · rw [if_pos h0]; exact ⟨[], by simp⟩
    · rw [if_neg h0]
      by_cases hc : (sel.map Candidate.id).contains c.id
      · rw [if_pos hc]; exact ih sel rem
      · rw [if_neg hc]
        rcases ih (sel ++ [c]) (rem - 1) with ⟨extra, hex⟩
        exact ⟨c :: extra, by rw [hex]; simp⟩

/-- With no remaining slots the fill loop is a no-op. -/
theorem cgFill_nonpos :
    ∀ (cs sel : List Candidate) (rem : Int), rem ≤ 0 → cgFill cs sel rem = sel := by
  intro cs sel rem h
  cases cs with
  | nil => rfl
  | cons c cs => unfold cgFill; rw [if_pos h]

/-- Elements produced by the fill loop come from the selection or the
candidate list. -/
theorem cgFill_mem :
    ∀ (cs sel : List Candidate) (rem : Int) (c : Candidate),
      c ∈ cgFill cs sel rem → c ∈ sel ∨ c ∈ cs := by
  intro cs
  induction cs with
  | nil => intro sel rem c hc; exact Or.inl hc
  | cons x xs ih =>
    intro sel rem c hc
    unfold cgFill at hc
    by_cases h0 : rem ≤ 0
    · rw [if_pos h0] at hc; exact Or.inl hc
    · rw [if_neg h0] at hc
      by_cases hx : (sel.map Candidate.id).contains x.id
      · rw [if_pos hx] at hc
        rcases ih sel rem c hc with hc' | hc'
        · exact Or.inl hc'
        · exact Or.inr (List.mem_cons_of_mem x hc')
      · rw [if_neg hx] at hc
        rcases ih (sel ++ [x]) (rem - 1) c hc with hc' | hc'
        · rcases List.mem_append.mp hc' with hc'' | hc''
          · exact Or.inl hc''
          · rw [List.mem_singleton] at hc''
            exact Or.inr (by rw [hc'']; exact List.mem_cons_self x xs)
        · exact Or.inr (List.mem_cons_of_mem x hc')

/-- The fill loop preserves id distinctness of the selection. -/
theorem cgFill_nodup :
    ∀ (cs sel : List Candidate) (rem : Int), ((sel.map Candidate.id)).Nodup →
      ((cgFill cs sel rem).map Candidate.id).Nodup := by
  intro cs
  induction cs with
  | nil => intro sel rem h; exact h
  | cons x xs ih =>
    intro sel rem h
    unfold cgFill
    by_cases h0 : rem ≤ 0
    · rw [if_pos h0]; exact h
    · rw [if_neg h0]
      by_cases hx : (sel.map Candidate.id).contains x.id
      · rw [if_pos hx]; exact ih sel rem h
      · rw [if_neg hx]
        refine ih (sel ++ [x]) (rem - 1) ?_
        rw [List.map_append, List.nodup_append]
        refine ⟨h, by simp, ?_⟩
        intro a ha ha'
        rw [List.map_singleton, List.mem_singleton] at ha'
        subst ha'
        exact hx (by simpa using ha)

/-! ## Coverage-gate decomposition lemmas -/

/-- In an id-distinct candidate list, ids determine elements. -/
theorem id_inj_of_nodup (candidates : List Candidate)
    (hnd : (candidates.map Candidate.id).Nodup) :
    ∀ x ∈ candidates, ∀ y ∈ candidates, x.id = y.id → x = y := by
  intro x hx y hy hxy
  exact List.inj_on_of_nodup_map hnd hx hy hxy

/-- Ids of a taken prefix of a filtered sublist stay distinct. -/
theorem take_filter_ids_nodup (candidates : List Candidate) (p : Candidate → Bool) (n : Nat)
    (hnd : (candidates.map Candidate.id).Nodup) :
    (((candidates.filter p).take n).map Candidate.id).Nodup :=
  List.Nodup.sublist
    (List.Sublist.map Candidate.id
      ((List.take_sublist n _).trans (List.filter_sublist candidates))) hnd

/-- Doc-kind and code-kind prefixes cannot share an id when the input ids
are distinct. -/
theorem kind_take_ids_disjoint (candidates : List Candidate) (n m : Nat)
    (hnd : (candidates.map Candidate.id).Nodup) :
    List.Disjoint
      (((candidates.filter (fun c => c.kind == "doc")).take n).map Candidate.id)
      (((candidates.filter (fun c => c.kind == "code")).take m).map Candidate.id) := by
  intro a ha hb
  rcases List.mem_map.mp ha with ⟨x, hx, hxa⟩
  rcases List.mem_map.mp hb with ⟨y, hy, hya⟩
  have hx' : x ∈ candidates.filter (fun c => c.kind == "doc") := List.mem_of_mem_take hx
  have hy' : y ∈ candidates.filter (fun c => c.kind == "code") := List.mem_of_mem_take hy
  have hxk : x.kind = "doc" := by simpa using List.of_mem_filter hx'
  have hyk : y.kind = "code" := by simpa using List.of_mem_filter hy'
  have hxy : x = y :=
    id_inj_of_nodup candidates hnd x (List.mem_of_mem_filter hx')
      y (List.mem_of_mem_filter hy') (hxa.trans hya.symm)
  rw [hxy, hyk] at hxk
  exact absurd hxk (by decide)

/-- Under distinct input ids, the two forced loops select exactly the doc
prefix followed by the code prefix. -/
theorem gates_forced_eq (candidates : List Candidate) (min_docs min_code : Nat)
    (hnd : (candidates.map Candidate.id).Nodup) :
    ((candidates.filter (fun c => c.kind == "code")).take min_code).foldl cgAdd
        (((candidates.filter (fun c => c.kind == "doc")).take min_docs).foldl cgAdd [])
      = (candidates.filter (fun c => c.kind == "doc")).take min_docs
        ++ (candidates.filter (fun c => c.kind == "code")).take min_code := by
  have h1 := foldl_cgAdd_append
    ((candidates.filter (fun c => c.kind == "doc")).take min_docs) []
    (by simpa using take_filter_ids_nodup candidates (fun c => c.kind == "doc") min_docs hnd)
  rw [List.nil_append] at h1
  have hnd2 : ((((candidates.filter (fun c => c.kind == "doc")).take min_docs)
      ++ ((candidates.filter (fun c => c.kind == "code")).take min_code)).map Candidate.id).Nodup := by
    rw [List.map_append, List.nodup_append]
    exact ⟨take_filter_ids_nodup candidates _ min_docs hnd,
      take_filter_ids_nodup candidates _ min_code hnd,
      kind_take_ids_disjoint candidates min_docs min_code hnd⟩
  have h2 := foldl_cgAdd_append
    ((candidates.filter (fun c => c.kind == "code")).take min_code)
    ((candidates.filter (fun c => c.kind == "doc")).take min_docs) hnd2
  rw [h1, h2]

/-- The gate selection is the sorted fill result. -/
theorem gates_fst (candidates : List Candidate) (top_k min_docs min_code : Nat) :
    (apply_coverage_gates candidates top_k min_docs min_code).1
      = (gatesFilled candidates top_k min_docs min_code).insertionSort gateDesc := by
  unfold apply_coverage_gates
  dsimp only
  split <;> rfl

/-- The gate warnings are exactly determined by the realized counts. -/
theorem gates_snd (candidates : List Candidate) (top_k min_docs min_code : Nat) :
    (apply_coverage_gates candidates top_k min_docs min_code).2
      = (let sel := (gatesFilled candidates top_k min_docs min_code).insertionSort gateDesc
         let final_docs := (sel.filter (fun c => c.kind == "doc")).length
         let final_code := (sel.filter (fun c => c.kind == "code")).length
         if final_docs < min_docs ∨ final_code < min_code then
           [s!"Coverage gate: docs={final_docs}, code={final_code} (wanted {min_docs}/{min_code})"]
         else []) := by
  unfold apply_coverage_gates
  dsimp only
  split <;> rfl

/-- Under distinct input ids, the pre-sort fill result is the forced
prefixes plus extra fill material. -/
theorem gatesFilled_eq (candidates : List Candidate) (top_k min_docs min_code : Nat)
    (hnd : (candidates.map Candidate.id).Nodup) :
    ∃ extra, gatesFilled candidates top_k min_docs min_code
      = ((candidates.filter (fun c => c.kind == "doc")).take min_docs
          ++ (candidates.filter (fun c => c.kind == "code")).take min_code) ++ extra := by
  unfold gatesFilled
  dsimp only
  rw [gates_forced_eq candidates min_docs min_code hnd]
  exact cgFill_extends candidates _ _

/-- The gate selection always has pairwise-distinct ids, for every input. -/
theorem gates_selected_nodup (candidates : List Candidate) (top_k min_docs min_code : Nat) :
    (((apply_coverage_gates candidates top_k min_docs min_code).1).map Candidate.id).Nodup := by
  rw [gates_fst]
  have hperm := (List.perm_insertionSort gateDesc
    (gatesFilled candidates top_k min_docs min_code)).map Candidate.id
  refine hperm.nodup_iff.mpr ?_
  unfold gatesFilled
  dsimp only
  exact cgFill_nodup candidates _ _
    (foldl_cgAdd_nodup _ _ (foldl_cgAdd_nodup _ [] (by simp)))

/-- Every selected candidate comes from the input list. -/
theorem gates_selected_mem (candidates : List Candidate) (top_k min_docs min_code : Nat) :
    ∀ c ∈ (apply_coverage_gates candidates top_k min_docs min_code).1, c ∈ candidates := by
  intro c hc
  rw [gates_fst] at hc
  have hc' := (List.mem_insertionSort gateDesc).mp hc
  unfold gatesFilled at hc'
  dsimp only at hc'
  rcases cgFill_mem candidates _ _ c hc' with hc'' | hc''
  · rcases foldl_cgAdd_mem _ _ c hc'' with hc3 | hc3
    · rcases foldl_cgAdd_mem _ [] c hc3 with hc4 | hc4
      · cases hc4
      · exact List.mem_of_mem_filter (List.mem_of_mem_take hc4)
    · exact List.mem_of_mem_filter (List.mem_of_mem_take hc3)
  · exact hc''

/-- The gate selection is sorted by the gate key, descending. -/
theorem gates_selected_sorted (candidates : List Candidate) (top_k min_docs min_code : Nat) :
    ((apply_coverage_gates candidates top_k min_docs min_code).1).Sorted gateDesc := by
  rw [gates_fst]
  exact List.sorted_insertionSort gateDesc _

/-- Filtering a taken prefix of an already-filtered list changes nothing. -/
theorem filter_take_filter_self (l : List Candidate) (p : Candidate → Bool) (n : Nat) :
    ((l.filter p).take n).filter p = (l.filter p).take n :=
  List.filter_eq_self.mpr (fun a ha => List.of_mem_filter (List.mem_of_mem_take ha))

/-- Filtering a taken prefix by a predicate excluded by the original filter
gives nothing. -/
theorem filter_take_filter_none (l : List Candidate) (p q : Candidate → Bool) (n : Nat)
    (h : ∀ c, p c = true → q c = false) :
    ((l.filter p).take n).filter q = [] := by
  rw [List.filter_eq_nil]
  intro a ha
  rw [h a (List.of_mem_filter (List.mem_of_mem_take ha))]
  simp

/-- A doc-kind candidate is not code-kind. -/
theorem doc_not_code (c : Candidate) (h : (c.kind == "doc") = true) :
    (c.kind == "code") = false := by
  rw [beq_iff_eq] at h
  rw [h]
  decide

/-- A code-kind candidate is not doc-kind. -/
theorem code_not_doc (c : Candidate) (h : (c.kind == "code") = true) :
    (c.kind == "doc") = false := by
  rw [beq_iff_eq] at h
  rw [h]
  decide

/-- Lower bound: with distinct ids and enough candidates of each kind, the
selection keeps at least the forced counts. -/
theorem gates_min_counts (candidates : List Candidate) (top_k min_docs min_code : Nat)
    (hnd : (candidates.map Candidate.id).Nodup)
    (hda : min_docs ≤ (candidates.filter (fun c => c.kind == "doc")).length)
    (hca : min_code ≤ (candidates.filter (fun c => c.kind == "code")).length) :
    min_docs ≤ (((apply_coverage_gates candidates top_k min_docs min_code).1).filter
        (fun c => c.kind == "doc")).length
    ∧ min_code ≤ (((apply_coverage_gates candidates top_k min_docs min_code).1).filter
        (fun c => c.kind == "code")).length := by
  rcases gatesFilled_eq candidates top_k min_docs min_code hnd with ⟨extra, hfe⟩
  have hperm : (apply_coverage_gates candidates top_k min_docs min_code).1.Perm
      (gatesFilled candidates top_k min_docs min_code) := by
    rw [gates_fst]
    exact List.perm_insertionSort gateDesc _
  constructor
  · rw [← List.countP_eq_length_filter, hperm.countP_eq, hfe]
    rw [List.countP_append, List.countP_append]
    rw [List.countP_eq_length_filter, filter_take_filter_self]
    rw [List.countP_eq_length_filter, filter_take_filter_none _ _ _ _ code_not_doc]
    have hdlen : ((candidates.filter (fun c => c.kind == "doc")).take min_docs).length
        = min_docs := by
      rw [List.length_take]
      exact min_eq_left hda
    omega
  · rw [← List.countP_eq_length_filter, hperm.countP_eq, hfe]
    rw [List.countP_append, List.countP_append]
    rw [List.countP_eq_length_filter, filter_take_filter_none _ _ _ _ doc_not_code]
    rw [List.countP_eq_length_filter, filter_take_filter_self]
    have hclen : ((candidates.filter (fun c => c.kind == "code")).take min_code).length
        = min_code := by
      rw [List.length_take]
      exact min_eq_left hca
    omega

/-- Upper bound: the selection never contains more of a kind than the input
offers (for every input, thanks to the id checks in the loops). -/
theorem gates_counts_le (candidates : List Candidate) (top_k min_docs min_code : Nat)
    (p : Candidate → Bool) :
    (((apply_coverage_gates candidates top_k min_docs min_code).1).filter p).length
      ≤ ((candidates.filter p)).length := by
  set sel := (apply_coverage_gates candidates top_k min_docs min_code).1 with hsel
  have hnd : ((sel.filter p).map Candidate.id).Nodup :=
    List.Nodup.sublist (List.Sublist.map Candidate.id (List.filter_sublist sel))
      (gates_selected_nodup candidates top_k min_docs min_code)
  have hsub : (sel.filter p).map Candidate.id ⊆ (candidates.filter p).map Candidate.id := by
    intro a ha
    rcases List.mem_map.mp ha with ⟨x, hx, hxa⟩
    have hx1 : x ∈ sel := List.mem_of_mem_filter hx
    have hx2 : p x = true := List.of_mem_filter hx
    have hx3 : x ∈ candidates := gates_selected_mem candidates top_k min_docs min_code x hx1
    exact hxa ▸ List.mem_map_of_mem Candidate.id (List.mem_filter.mpr ⟨hx3, hx2⟩)
  have := (List.Nodup.subperm hnd hsub).length_le
  simpa using this

/-- When the forced prefixes already exceed `top_k`, the fill loop is a
no-op and the selection has exactly the forced size. -/
theorem gates_size_of_small_top_k (candidates : List Candidate)
    (top_k min_docs min_code : Nat)
    (hnd : (candidates.map Candidate.id).Nodup)
    (hda : min_docs ≤ (candidates.filter (fun c => c.kind == "doc")).length)
    (hca : min_code ≤ (candidates.filter (fun c => c.kind == "code")).length)
    (htk : top_k < min_docs + min_code) :
    ((apply_coverage_gates candidates top_k min_docs min_code).1).length
      = min_docs + min_code := by
  have hdlen : ((candidates.filter (fun c => c.kind == "doc")).take min_docs).length
      = min_docs := by
    rw [List.length_take]; exact min_eq_left hda
  have hclen : ((candidates.filter (fun c => c.kind == "code")).take min_code).length
      = min_code := by
    rw [List.length_take]; exact min_eq_left hca
  have hforced := gates_forced_eq candidates min_docs min_code hnd
  have hlen : (((candidates.filter (fun c => c.kind == "code")).take min_code).foldl cgAdd
      (((candidates.filter (fun c => c.kind == "doc")).take min_docs).foldl cgAdd [])).length
      = min_docs + min_code := by
    rw [hforced, List.length_append, hdlen, hclen]
  have hfe : gatesFilled candidates top_k min_docs min_code
      = ((candidates.filter (fun c => c.kind == "code")).take min_code).foldl cgAdd
          (((candidates.filter (fun c => c.kind == "doc")).take min_docs).foldl cgAdd []) := by
    unfold gatesFilled
    dsimp only
    apply cgFill_nonpos
    rw [hlen]
    omega
  rw [gates_fst]
  rw [(List.perm_insertionSort gateDesc _).length_eq, hfe, hlen]

/-! ## Candidate-balancer lemmas -/

/-- A boolean filter splits a list's length. -/
theorem length_filter_add_not (l : List Candidate) (p : Candidate → Bool) :
    (l.filter p).length + (l.filter (fun c => !(p c))).length = l.length := by
  induction l with
  | nil => rfl
  | cons c cs ih =>
    cases hpc : p c
    · simp only [List.filter_cons, hpc, Bool.not_false, if_neg, if_pos, Bool.false_eq_true,
        ite_false, ite_true, List.length_cons]
      omega
    · simp only [List.filter_cons, hpc, Bool.not_true, Bool.false_eq_true, ite_false,
        ite_true, List.length_cons]
      omega

/-- Two mutually exclusive filters never exceed the whole list. -/
theorem length_filter_disjoint_le (l : List Candidate) (p q : Candidate → Bool)
    (h : ∀ c, p c = true → q c = false) :
    (l.filter p).length + (l.filter q).length ≤ l.length := by
  induction l with
  | nil => simp
  | cons c cs ih =>
    cases hpc : p c
    · cases hqc : q c
      · simp only [List.filter_cons, hpc, hqc, Bool.false_eq_true, ite_false,
          List.length_cons]
        omega
      · simp only [List.filter_cons, hpc, hqc, Bool.false_eq_true, ite_false, ite_true,
          List.length_cons]
        omega
    · have hqc : q c = false := h c hpc
      simp only [List.filter_cons, hpc, hqc, Bool.false_eq_true, ite_false, ite_true,
        List.length_cons]
      omega

/-- Counting the candidates whose id occurs in an id-distinct subselection
recovers the subselection's size. -/
theorem filter_mem_ids_length (candidates sub : List Candidate)
    (hnd : (candidates.map Candidate.id).Nodup)
    (hsnd : (sub.map Candidate.id).Nodup)
    (hsub : ∀ c ∈ sub, c ∈ candidates) :
    (candidates.filter (fun c => (sub.map Candidate.id).contains c.id)).length
      = sub.length := by
  have hperm : ((candidates.filter
        (fun c => (sub.map Candidate.id).contains c.id)).map Candidate.id).Perm
      (sub.map Candidate.id) := by
    rw [List.perm_ext_iff_of_nodup
      (List.Nodup.sublist (List.Sublist.map _ (List.filter_sublist _)) hnd) hsnd]
    intro a
    constructor
    · intro ha
      rcases List.mem_map.mp ha with ⟨x, hx, hxa⟩
      have := List.of_mem_filter hx
      rw [← hxa]
      simpa using this
    · intro ha
      rcases List.mem_map.mp ha with ⟨y, hy, hya⟩
      refine List.mem_map.mpr ⟨y, List.mem_filter.mpr ⟨hsub y hy, ?_⟩, hya⟩
      simp
      exact ⟨y, hy, rfl⟩
  have := hperm.length_eq
  simpa using this

/-- The two kind prefixes taken by the balancer have distinct ids. -/
theorem balanced_prefixes_nodup (candidates : List Candidate) (n m : Nat)
    (hnd : (candidates.map Candidate.id).Nodup) :
    ((((candidates.filter (fun c => c.kind == "doc")).take n)
      ++ ((candidates.filter (fun c => c.kind == "code")).take m)).map Candidate.id).Nodup := by
  rw [List.map_append, List.nodup_append]
  exact ⟨take_filter_ids_nodup candidates _ n hnd,
    take_filter_ids_nodup candidates _ m hnd,
    kind_take_ids_disjoint candidates n m hnd⟩

/-- Every element of the balancer's forced prefixes comes from the input. -/
theorem balanced_prefixes_subset (candidates : List Candidate) (n m : Nat) :
    ∀ c ∈ (((candidates.filter (fun c => c.kind == "doc")).take n)
      ++ ((candidates.filter (fun c => c.kind == "code")).take m)), c ∈ candidates := by
  intro c hc
  rcases List.mem_append.mp hc with hc | hc
  · exact List.mem_of_mem_filter (List.mem_of_mem_take hc)
  · exact List.mem_of_mem_filter (List.mem_of_mem_take hc)

/-- Unfolded form of the balancer. -/
theorem balance_eq_core (candidates : List Candidate) (target_size min_per_type : Nat) :
    balance_candidate_pool candidates target_size min_per_type
      = (let bal := (candidates.filter (fun c => c.kind == "doc")).take
            (max min_per_type (target_size / 2))
          ++ (candidates.filter (fun c => c.kind == "code")).take
            (max min_per_type (target_size / 2))
         if bal.length < target_size then
           bal ++ (candidates.filter
              (fun c => !((bal.map Candidate.id).contains c.id))).take
                (target_size - bal.length)
         else bal) := rfl

/-- Balancer output when the forced prefixes already reach the target. -/
theorem balance_eq_of_ge (candidates : List Candidate) (target_size min_per_type : Nat)
    (hmpt : min_per_type ≤ target_size / 2)
    (h : ¬((candidates.filter (fun c => c.kind == "doc")).take (target_size / 2)
        ++ (candidates.filter (fun c => c.kind == "code")).take (target_size / 2)).length
          < target_size) :
    balance_candidate_pool candidates target_size min_per_type
      = (candidates.filter (fun c => c.kind == "doc")).take (target_size / 2)
        ++ (candidates.filter (fun c => c.kind == "code")).take (target_size / 2) := by
  rw [balance_eq_core]
  dsimp only
  rw [max_eq_right hmpt, if_neg h]

/-- Balancer output when the forced prefixes fall short of the target. -/
theorem balance_eq_of_lt (candidates : List Candidate) (target_size min_per_type : Nat)
    (hmpt : min_per_type ≤ target_size / 2)
    (h : ((candidates.filter (fun c => c.kind == "doc")).take (target_size / 2)
        ++ (candidates.filter (fun c => c.kind == "code")).take (target_size / 2)).length
          < target_size) :
    balance_candidate_pool candidates target_size min_per_type
      = ((candidates.filter (fun c => c.kind == "doc")).take (target_size / 2)
        ++ (candidates.filter (fun c => c.kind == "code")).take (target_size / 2))
        ++ (candidates.filter
            (fun c => !(((((candidates.filter (fun c => c.kind == "doc")).take (target_size / 2)
              ++ (candidates.filter (fun c => c.kind == "code")).take (target_size / 2))).map
                Candidate.id).contains c.id))).take
          (target_size
            - ((candidates.filter (fun c => c.kind == "doc")).take (target_size / 2)
              ++ (candidates.filter (fun c => c.kind == "code")).take (target_size / 2)).length) := by
  rw [balance_eq_core]
  dsimp only
  rw [max_eq_right hmpt, if_pos h]

/-- The doc-kind part of the unselected remainder is exactly the unused doc
suffix. -/
theorem all_remaining_docs (candidates : List Candidate) (m : Nat)
    (hnd : (candidates.map Candidate.id).Nodup) :
    (candidates.filter
        (fun c => !((((candidates.filter (fun c => c.kind == "doc")).take m
          ++ (candidates.filter (fun c => c.kind == "code")).take m).map
            Candidate.id).contains c.id))).filter (fun c => c.kind == "doc")
      = (candidates.filter (fun c => c.kind == "doc")).drop m := by
  rw [List.filter_filter]
  have hswap : (candidates.filter
      (fun c => ((fun c => c.kind == "doc") c
        && (fun c => !((((candidates.filter (fun c => c.kind == "doc")).take m
          ++ (candidates.filter (fun c => c.kind == "code")).take m).map
            Candidate.id).contains c.id)) c)))
      = ((candidates.filter (fun c => c.kind == "doc")).filter
        (fun c => !((((candidates.filter (fun c => c.kind == "doc")).take m
          ++ (candidates.filter (fun c => c.kind == "code")).take m).map
            Candidate.id).contains c.id))) := by
    rw [List.filter_filter]
    apply List.filter_congr
    intro c _
    exact Bool.and_comm _ _
  rw [hswap]
  have hsplit : (candidates.filter (fun c => c.kind == "doc"))
      = (candidates.filter (fun c => c.kind == "doc")).take m
        ++ (candidates.filter (fun c => c.kind == "doc")).drop m :=
    (List.take_append_drop m _).symm
  nth_rewrite 2 [hsplit]
  rw [List.filter_append]
  have htake : ((candidates.filter (fun c => c.kind == "doc")).take m).filter
      (fun c => !((((candidates.filter (fun c => c.kind == "doc")).take m
        ++ (candidates.filter (fun c => c.kind == "code")).take m).map
          Candidate.id).contains c.id)) = [] := by
    rw [List.filter_eq_nil]
    intro x hx
    simp only [Bool.not_eq_true', Bool.not_eq_false]
    simp only [List.contains_iff_exists_mem_beq]
    refine ⟨x.id, ?_, by simp⟩
    exact List.mem_map_of_mem Candidate.id (List.mem_append.mpr (Or.inl hx))
  have hdrop : ((candidates.filter (fun c => c.kind == "doc")).drop m).filter
      (fun c => !((((candidates.filter (fun c => c.kind == "doc")).take m
        ++ (candidates.filter (fun c => c.kind == "code")).take m).map
          Candidate.id).contains c.id))
      = (candidates.filter (fun c => c.kind == "doc")).drop m := by
    rw [List.filter_eq_self]
    intro x hx
    simp only [Bool.not_eq_true']
    rw [← Bool.not_eq_true]
    intro hcont
    have hxid : x.id ∈ (((candidates.filter (fun c => c.kind == "doc")).take m
        ++ (candidates.filter (fun c => c.kind == "code")).take m).map Candidate.id) := by
      simpa using hcont
    rcases List.mem_map.mp hxid with ⟨y, hy, hyx⟩
    have hxmemD : x ∈ candidates.filter (fun c => c.kind == "doc") :=
      List.mem_of_mem_drop hx
    have hxcand : x ∈ candidates := List.mem_of_mem_filter hxmemD
    have hycand : y ∈ candidates := balanced_prefixes_subset candidates m m y hy
    have hxy : x = y := id_inj_of_nodup candidates hnd x hxcand y hycand hyx.symm
    rcases List.mem_append.mp hy with hy' | hy'
    · have hDnodup : ((candidates.filter (fun c => c.kind == "doc")).map Candidate.id).Nodup :=
        List.Nodup.sublist (List.Sublist.map _ (List.filter_sublist _)) hnd
      have hsplitD := hsplit
      rw [hsplitD, List.map_append, List.nodup_append] at hDnodup
      exact hDnodup.2.2
        (List.mem_map_of_mem Candidate.id (hxy ▸ hy'))
        (List.mem_map_of_mem Candidate.id hx)
    · have hyk : y.kind = "code" := by
        simpa using List.of_mem_filter (List.mem_of_mem_take hy')
      have hxk : x.kind = "doc" := by
        simpa using List.of_mem_filter hxmemD
      rw [hxy, hyk] at hxk
      exact absurd hxk (by decide)
  rw [htake, hdrop, List.nil_append]

/-- The code-kind part of the unselected remainder is exactly the unused
code suffix. -/
theorem all_remaining_codes (candidates : List Candidate) (m : Nat)
    (hnd : (candidates.map Candidate.id).Nodup) :
    (candidates.filter
        (fun c => !((((candidates.filter (fun c => c.kind == "doc")).take m
          ++ (candidates.filter (fun c => c.kind == "code")).take m).map
            Candidate.id).contains c.id))).filter (fun c => c.kind == "code")
      = (candidates.filter (fun c => c.kind == "code")).drop m := by
  rw [List.filter_filter]
  have hswap : (candidates.filter
      (fun c => ((fun c => c.kind == "code") c
        && (fun c => !((((candidates.filter (fun c => c.kind == "doc")).take m
          ++ (candidates.filter (fun c => c.kind == "code")).take m).map
            Candidate.id).contains c.id)) c)))
      = ((candidates.filter (fun c => c.kind == "code")).filter
        (fun c => !((((candidates.filter (fun c => c.kind == "doc")).take m
          ++ (candidates.filter (fun c => c.kind == "code")).take m).map
            Candidate.id).contains c.id))) := by
    rw [List.filter_filter]
    apply List.filter_congr
    intro c _
    exact Bool.and_comm _ _
  rw [hswap]
  have hsplit : (candidates.filter (fun c => c.kind == "code"))
      = (candidates.filter (fun c => c.kind == "code")).take m
        ++ (candidates.filter (fun c => c.kind == "code")).drop m :=
    (List.take_append_drop m _).symm
  nth_rewrite 2 [hsplit]
  rw [List.filter_append]
  have htake : ((candidates.filter (fun c => c.kind == "code")).take m).filter
      (fun c => !((((candidates.filter (fun c => c.kind == "doc")).take m
        ++ (candidates.filter (fun c => c.kind == "code")).take m).map
          Candidate.id).contains c.id)) = [] := by
    rw [List.filter_eq_nil]
    intro x hx
    simp only [Bool.not_eq_true', Bool.not_eq_false]
    simp only [List.contains_iff_exists_mem_beq]
    refine ⟨x.id, ?_, by simp⟩
    exact List.mem_map_of_mem Candidate.id (List.mem_append.mpr (Or.inr hx))
  have hdrop : ((candidates.filter (fun c => c.kind == "code")).drop m).filter
      (fun c => !((((candidates.filter (fun c => c.kind == "doc")).take m
        ++ (candidates.filter (fun c => c.kind == "code")).take m).map
          Candidate.id).contains c.id))
      = (candidates.filter (fun c => c.kind == "code")).drop m := by
    rw [List.filter_eq_self]
    intro x hx
    simp only [Bool.not_eq_true']
    rw [← Bool.not_eq_true]
    intro hcont
    have hxid : x.id ∈ (((candidates.filter (fun c => c.kind == "doc")).take m
        ++ (candidates.filter (fun c => c.kind == "code")).take m).map Candidate.id) := by
      simpa using hcont
    rcases List.mem_map.mp hxid with ⟨y, hy, hyx⟩
    have hxmemC : x ∈ candidates.filter (fun c => c.kind == "code") :=
      List.mem_of_mem_drop hx
    have hxcand : x ∈ candidates := List.mem_of_mem_filter hxmemC
    have hycand : y ∈ candidates := balanced_prefixes_subset candidates m m y hy
    have hxy : x = y := id_inj_of_nodup candidates hnd x hxcand y hycand hyx.symm
    rcases List.mem_append.mp hy with hy' | hy'
    · have hyk : y.kind = "doc" := by
        simpa using List.of_mem_filter (List.mem_of_mem_take hy')
      have hxk : x.kind = "code" := by
        simpa using List.of_mem_filter hxmemC
      rw [hxy, hyk] at hxk
      exact absurd hxk (by decide)
    · have hCnodup : ((candidates.filter (fun c => c.kind == "code")).map Candidate.id).Nodup :=
        List.Nodup.sublist (List.Sublist.map _ (List.filter_sublist _)) hnd
      have hsplitC := hsplit
      rw [hsplitC, List.map_append, List.nodup_append] at hCnodup
      exact hCnodup.2.2
        (List.mem_map_of_mem Candidate.id (hxy ▸ hy'))
        (List.mem_map_of_mem Candidate.id hx)
  rw [htake, hdrop, List.nil_append]

/-- The balanced pool preserves id distinctness of its input. -/
theorem balance_nodup (candidates : List Candidate) (target_size min_per_type : Nat)
    (hnd : (candidates.map Candidate.id).Nodup) :
    ((balance_candidate_pool candidates target_size min_per_type).map Candidate.id).Nodup := by
  rw [balance_eq_core]
  dsimp only
  split
  · rw [List.map_append, List.nodup_append]
    refine ⟨balanced_prefixes_nodup candidates _ _ hnd, ?_, ?_⟩
    · exact List.Nodup.sublist
        (List.Sublist.map _ ((List.take_sublist _ _).trans (List.filter_sublist _))) hnd
    · intro a ha hb
      rcases List.mem_map.mp hb with ⟨x, hx, hxa⟩
      have hpred := List.of_mem_filter (List.mem_of_mem_take hx)
      rw [Bool.not_eq_true'] at hpred
      exact absurd (hxa ▸ ha) (by simpa using hpred)
  · exact balanced_prefixes_nodup candidates _ _ hnd

/-- The unselected remainder of a filter, taken to any depth, has a doc part
that is a prefix of the unused doc suffix. -/
theorem balance_fill_docs_prefix (candidates : List Candidate) (m rem : Nat)
    (hnd : (candidates.map Candidate.id).Nodup) :
    ∃ t, ((candidates.filter
        (fun c => !((((candidates.filter (fun c => c.kind == "doc")).take m
          ++ (candidates.filter (fun c => c.kind == "code")).take m).map
            Candidate.id).contains c.id))).take rem).filter (fun c => c.kind == "doc") ++ t
      = (candidates.filter (fun c => c.kind == "doc")).drop m := by
  refine ⟨((candidates.filter
      (fun c => !((((candidates.filter (fun c => c.kind == "doc")).take m
        ++ (candidates.filter (fun c => c.kind == "code")).take m).map
          Candidate.id).contains c.id))).drop rem).filter (fun c => c.kind == "doc"), ?_⟩
  rw [← List.filter_append, List.take_append_drop]
  exact all_remaining_docs candidates m hnd

/-- The unselected remainder, taken to any depth, has a code part that is a
prefix of the unused code suffix. -/
theorem balance_fill_codes_prefix (candidates : List Candidate) (m rem : Nat)
    (hnd : (candidates.map Candidate.id).Nodup) :
    ∃ t, ((candidates.filter
        (fun c => !((((candidates.filter (fun c => c.kind == "doc")).take m
          ++ (candidates.filter (fun c => c.kind == "code")).take m).map
            Candidate.id).contains c.id))).take rem).filter (fun c => c.kind == "code") ++ t
      = (candidates.filter (fun c => c.kind == "code")).drop m := by
  refine ⟨((candidates.filter
      (fun c => !((((candidates.filter (fun c => c.kind == "doc")).take m
        ++ (candidates.filter (fun c => c.kind == "code")).take m).map
          Candidate.id).contains c.id))).drop rem).filter (fun c => c.kind == "code"), ?_⟩
  rw [← List.filter_append, List.take_append_drop]
  exact all_remaining_codes candidates m hnd

/-- The unselected remainder has exactly the input minus the selection. -/
theorem filter_not_mem_ids_length (candidates sub : List Candidate)
    (hnd : (candidates.map Candidate.id).Nodup)
    (hsnd : (sub.map Candidate.id).Nodup)
    (hsub : ∀ c ∈ sub, c ∈ candidates) :
    (candidates.filter (fun c => !((sub.map Candidate.id).contains c.id))).length
      = candidates.length - sub.length := by
  have hsum := length_filter_add_not candidates
    (fun c => (sub.map Candidate.id).contains c.id)
  have hsel := filter_mem_ids_length candidates sub hnd hsnd hsub
  omega

/-- Master lemma for the balancer under distinct ids, a floor not exceeding
half the target, and at least `target/2` candidates of each kind: each
kind's output sublist is a rank-order prefix of that kind's input, each kind
gets at least `target/2` slots, and the total is `min(target, available)`. -/
theorem balance_pool_spec (candidates : List Candidate) (target_size min_per_type : Nat)
    (hnd : (candidates.map Candidate.id).Nodup)
    (hmpt : min_per_type ≤ target_size / 2)
    (hda : target_size / 2 ≤ (candidates.filter (fun c => c.kind == "doc")).length)
    (hca : target_size / 2 ≤ (candidates.filter (fun c => c.kind == "code")).length) :
    (∃ t, ((balance_candidate_pool candidates target_size min_per_type).filter
        (fun c => c.kind == "doc")) ++ t = candidates.filter (fun c => c.kind == "doc"))
    ∧ (∃ t, ((balance_candidate_pool candidates target_size min_per_type).filter
        (fun c => c.kind == "code")) ++ t = candidates.filter (fun c => c.kind == "code"))
    ∧ target_size / 2
        ≤ ((balance_candidate_pool candidates target_size min_per_type).filter
          (fun c => c.kind == "doc")).length
    ∧ target_size / 2
        ≤ ((balance_candidate_pool candidates target_size min_per_type).filter
          (fun c => c.kind == "code")).length
    ∧ (balance_candidate_pool candidates target_size min_per_type).length
        = min target_size candidates.length := by
  have hdT : ((candidates.filter (fun c => c.kind == "doc")).take (target_size / 2)).length
      = target_size / 2 := by
    rw [List.length_take]; exact min_eq_left hda
  have hcT : ((candidates.filter (fun c => c.kind == "code")).take (target_size / 2)).length
      = target_size / 2 := by
    rw [List.length_take]; exact min_eq_left hca
  have hNs : target_size / 2 + target_size / 2 ≤ candidates.length :=
    le_trans (Nat.add_le_add hda hca)
      (length_filter_disjoint_le candidates _ _ doc_not_code)
  have hballen : (((candidates.filter (fun c => c.kind == "doc")).take (target_size / 2)
      ++ (candidates.filter (fun c => c.kind == "code")).take (target_size / 2))).length
      = target_size / 2 + target_size / 2 := by
    rw [List.length_append, hdT, hcT]
  by_cases hfull : ((candidates.filter (fun c => c.kind == "doc")).take (target_size / 2)
      ++ (candidates.filter (fun c => c.kind == "code")).take (target_size / 2)).length
        < target_size
  · -- fill case: the forced prefixes fall short of the target
    have hout := balance_eq_of_lt candidates target_size min_per_type hmpt hfull
    rw [hout, hballen]
    have hfull2 : target_size / 2 + target_size / 2 < target_size := by
      rw [hballen] at hfull; exact hfull
    have hARlen := filter_not_mem_ids_length candidates
      ((candidates.filter (fun c => c.kind == "doc")).take (target_size / 2)
        ++ (candidates.filter (fun c => c.kind == "code")).take (target_size / 2)) hnd
      (balanced_prefixes_nodup candidates _ _ hnd)
      (balanced_prefixes_subset candidates _ _)
    rw [hballen] at hARlen
    obtain ⟨t1, ht1⟩ := balance_fill_docs_prefix candidates (target_size / 2)
      (target_size - (target_size / 2 + target_size / 2)) hnd
    obtain ⟨t2, ht2⟩ := balance_fill_codes_prefix candidates (target_size / 2)
      (target_size - (target_size / 2 + target_size / 2)) hnd
    have hfdoc : ((((candidates.filter (fun c => c.kind == "doc")).take (target_size / 2)
        ++ (candidates.filter (fun c => c.kind == "code")).take (target_size / 2))
        ++ ((candidates.filter
          (fun c => !((((candidates.filter (fun c => c.kind == "doc")).take (target_size / 2)
            ++ (candidates.filter (fun c => c.kind == "code")).take (target_size / 2)).map
              Candidate.id).contains c.id))).take
            (target_size - (target_size / 2 + target_size / 2)))).filter
          (fun c => c.kind == "doc"))
        = (candidates.filter (fun c => c.kind == "doc")).take (target_size / 2)
          ++ ((candidates.filter
            (fun c => !((((candidates.filter (fun c => c.kind == "doc")).take (target_size / 2)
              ++ (candidates.filter (fun c => c.kind == "code")).take (target_size / 2)).map
                Candidate.id).contains c.id))).take
              (target_size - (target_size / 2 + target_size / 2))).filter
            (fun c => c.kind == "doc") := by
      rw [List.filter_append, List.filter_append, filter_take_filter_self,
        filter_take_filter_none candidates _ _ _ code_not_doc, List.append_nil]
    have hfcode : ((((candidates.filter (fun c => c.kind == "doc")).take (target_size / 2)
        ++ (candidates.filter (fun c => c.kind == "code")).take (target_size / 2))
        ++ ((candidates.filter
          (fun c => !((((candidates.filter (fun c => c.kind == "doc")).take (target_size / 2)
            ++ (candidates.filter (fun c => c.kind == "code")).take (target_size / 2)).map
              Candidate.id).contains c.id))).take
            (target_size - (target_size / 2 + target_size / 2)))).filter
          (fun c => c.kind == "code"))
        = (candidates.filter (fun c => c.kind == "code")).take (target_size / 2)
          ++ ((candidates.filter
            (fun c => !((((candidates.filter (fun c => c.kind == "doc")).take (target_size / 2)
              ++ (candidates.filter (fun c => c.kind == "code")).take (target_size / 2)).map
                Candidate.id).contains c.id))).take
              (target_size - (target_size / 2 + target_size / 2))).filter
            (fun c => c.kind == "code") := by
      rw [List.filter_append, List.filter_append,
        filter_take_filter_none candidates _ _ _ doc_not_code, filter_take_filter_self,
        List.nil_append]
    refine ⟨⟨t1, ?_⟩, ⟨t2, ?_⟩, ?_, ?_, ?_⟩
    · rw [hfdoc, List.append_assoc, ht1, List.take_append_drop]
    · rw [hfcode, List.append_assoc, ht2, List.take_append_drop]
    · rw [hfdoc, List.length_append, hdT]
      exact Nat.le_add_right _ _
    · rw [hfcode, List.length_append, hcT]
      exact Nat.le_add_right _ _
    · rw [List.length_append, hballen, List.length_take, hARlen]
      omega
  · -- full case: the forced prefixes already reach the target
    have hout := balance_eq_of_ge candidates target_size min_per_type hmpt hfull
    rw [hout]
    have hTeq : target_size / 2 + target_size / 2 = target_size := by
      have h1 := not_lt.mp hfull
      rw [hballen] at h1
      omega
    have hfdoc : (((candidates.filter (fun c => c.kind == "doc")).take (target_size / 2)
        ++ (candidates.filter (fun c => c.kind == "code")).take (target_size / 2)).filter
          (fun c => c.kind == "doc"))
        = (candidates.filter (fun c => c.kind == "doc")).take (target_size / 2) := by
      rw [List.filter_append, filter_take_filter_self,
        filter_take_filter_none candidates _ _ _ code_not_doc, List.append_nil]
    have hfcode : (((candidates.filter (fun c => c.kind == "doc")).take (target_size / 2)
        ++ (candidates.filter (fun c => c.kind == "code")).take (target_size / 2)).filter
          (fun c => c.kind == "code"))
        = (candidates.filter (fun c => c.kind == "code")).take (target_size / 2) := by
      rw [List.filter_append, filter_take_filter_none candidates _ _ _ doc_not_code,
        filter_take_filter_self, List.nil_append]
    refine ⟨⟨(candidates.filter (fun c => c.kind == "doc")).drop (target_size / 2), ?_⟩,
      ⟨(candidates.filter (fun c => c.kind == "code")).drop (target_size / 2), ?_⟩,
      ?_, ?_, ?_⟩
    · rw [hfdoc]
      exact List.take_append_drop _ _
    · rw [hfcode]
      exact List.take_append_drop _ _
    · rw [hfdoc, hdT]
    · rw [hfcode, hcT]
    · rw [List.length_append, hdT, hcT]
      have hTN : target_size ≤ candidates.length := hTeq ▸ hNs
      rw [min_eq_left hTN, hTeq]

/-! ## Retriever selection, evidence assembly and dedup lemmas -/

/-- The hybrid-response dedup keeps each id at most once, for every input. -/
theorem dedup_nodup (points : List Candidate) :
    ((dedupCandidates points).map Candidate.id).Nodup := by
  unfold dedupCandidates
  exact foldl_cgAdd_nodup points [] (by simp)

/-- The retriever's final selection is sorted by rerank score, descending. -/
theorem retrieveSelect_sorted (scored_candidates : List ScoredCand) (top_k_final : Nat) :
    (retrieveSelect scored_candidates top_k_final).Sorted scDesc := by
  unfold retrieveSelect
  dsimp only
  exact List.sorted_insertionSort scDesc _

/-- Rank assignment emits exactly the consecutive ranks `r, r+1, ...`. -/
theorem evidenceOfScored_map_rank :
    ∀ (r : Nat) (l : List ScoredCand),
      (evidenceOfScored r l).map EvidenceItem.rank = List.range' r l.length := by
  intro r l
  induction l generalizing r with
  | nil => rfl
  | cons x xs ih =>
    show (mkEvidenceItem r x).rank :: (evidenceOfScored (r + 1) xs).map EvidenceItem.rank
      = List.range' r (xs.length + 1)
    rw [ih (r + 1)]
    rfl

/-- Rank assignment preserves the number of items. -/
theorem evidenceOfScored_length :
    ∀ (r : Nat) (l : List ScoredCand), (evidenceOfScored r l).length = l.length := by
  intro r l
  induction l generalizing r with
  | nil => rfl
  | cons x xs ih =>
    show (evidenceOfScored (r + 1) xs).length + 1 = xs.length + 1
    rw [ih (r + 1)]

/-- Every assembled item carries the rerank score of some selected
candidate. -/
theorem evidenceOfScored_mem :
    ∀ (r : Nat) (l : List ScoredCand) (y : EvidenceItem),
      y ∈ evidenceOfScored r l → ∃ x ∈ l, y.rerank_score = x.rerank_score := by
  intro r l
  induction l generalizing r with
  | nil => intro y hy; cases hy
  | cons x xs ih =>
    intro y hy
    rcases List.mem_cons.mp hy with rfl | hy
    · exact ⟨x, List.mem_cons_self x xs, rfl⟩
    · rcases ih (r + 1) y hy with ⟨x', hx', hsc⟩
      exact ⟨x', List.mem_cons_of_mem x hx', hsc⟩

/-- Rank assignment preserves the descending-score order. -/
theorem evidenceOfScored_pairwise :
    ∀ (r : Nat) (l : List ScoredCand), l.Pairwise scDesc →
      (evidenceOfScored r l).Pairwise
        (fun a b => b.rerank_score ≤ a.rerank_score) := by
  intro r l
  induction l generalizing r with
  | nil => intro _; exact List.Pairwise.nil
  | cons x xs ih =>
    intro hp
    rw [List.pairwise_cons] at hp
    refine List.Pairwise.cons ?_ (ih (r + 1) hp.2)
    intro y hy
    rcases evidenceOfScored_mem (r + 1) xs y hy with ⟨x', hx', hsc⟩
    show y.rerank_score ≤ (mkEvidenceItem r x).rerank_score
    rw [hsc]
    exact hp.1 x' hx'

/-- Stage 4 of `search_adk` propagates a reranker failure out of the
pipeline: there is no local recovery. -/
theorem search_adk_finalize_failure (balanced_candidates : List Candidate)
    (msg : String) (top_k : Nat) (warnings : List String)
    (h : balanced_candidates ≠ []) :
    search_adk_finalize balanced_candidates true (RerankOutcome.failure msg) top_k warnings
      = Except.error msg := by
  unfold search_adk_finalize
  rw [if_pos (by simp [List.isEmpty_iff, h])]

/-! ## Claim theorems -/

/-- C7: for every string `s`, `normalize(normalize(s)) = normalize(s)`; the
normalizer trims leading/trailing whitespace (head and last of the output
are never whitespace), collapses every internal whitespace run to a single
space (no two adjacent whitespace characters remain, and the only
whitespace left is `' '`), and in particular
`normalize("  a   b ") = "a b"`. -/
theorem C7_normalizer_idempotent :
    (∀ s : String, normalize_query (normalize_query s) = normalize_query s)
    ∧ normalize_query "  a   b " = "a b"
    ∧ (∀ s : String,
        ((normalize_query s).data.head?.all (fun c => !isSpaceChar c)) = true)
    ∧ (∀ s : String,
        ((normalize_query s).data.getLast?.all (fun c => !isSpaceChar c)) = true)
    ∧ (∀ s : String, (normalize_query s).data.Chain'
        (fun a b => isSpaceChar a = false ∨ isSpaceChar b = false))
    ∧ (∀ s : String,
        ((normalize_query s).data.all (fun c => !isSpaceChar c || (c == ' '))) = true) := by
  refine ⟨?_, ?_, ?_, ?_, ?_, ?_⟩
  · intro s
    unfold normalize_query
    exact congrArg String.mk (normalizeChars_idem s.data)
  · decide
  · intro s
    have hgood := wordsAux_good s.data [] (by intro c hc; cases hc)
    show ((joinWords (wordsAux s.data [])).head?.all (fun c => !isSpaceChar c)) = true
    cases hh : (joinWords (wordsAux s.data [])).head? with
    | none => rfl
    | some c =>
      show (!isSpaceChar c) = true
      rw [joinWords_head (wordsAux s.data []) hgood c hh]
      rfl
  · intro s
    have hgood := wordsAux_good s.data [] (by intro c hc; cases hc)
    show ((joinWords (wordsAux s.data [])).getLast?.all (fun c => !isSpaceChar c)) = true
    cases hh : (joinWords (wordsAux s.data [])).getLast? with
    | none => rfl
    | some c =>
      show (!isSpaceChar c) = true
      rw [joinWords_last (wordsAux s.data []) hgood c hh]
      rfl
  · intro s
    have hgood := wordsAux_good s.data [] (by intro c hc; cases hc)
    show (joinWords (wordsAux s.data [])).Chain'
      (fun a b => isSpaceChar a = false ∨ isSpaceChar b = false)
    exact joinWords_chain (wordsAux s.data []) hgood
  · intro s
    have hgood := wordsAux_good s.data [] (by intro c hc; cases hc)
    show ((joinWords (wordsAux s.data [])).all (fun c => !isSpaceChar c || (c == ' '))) = true
    rw [List.all_eq_true]
    intro c hc
    rcases joinWords_mem (wordsAux s.data []) hgood c hc with h | h
    · rw [h]
      rfl
    · rw [h]
      simp

/-- C4: for every fixed collection of ranked lists (each a ranking:
its ids pairwise distinct), `reciprocal_rank_fusion` with the default
`k = 60` is deterministic, assigns each emitted candidate the exact score
`Σ over lists of 1/(k + rank)` (rank 1-based, absent lists contributing 0),
and keeps for each id the first-seen payload with the accumulated score. -/
theorem C4_rrf_deterministic_formula (results_lists : List (List Candidate))
    (hnd : ∀ l ∈ results_lists, (l.map Candidate.id).Nodup) :
    reciprocal_rank_fusion results_lists rrfDefaultK
        = reciprocal_rank_fusion results_lists rrfDefaultK
    ∧ ∀ c ∈ reciprocal_rank_fusion results_lists rrfDefaultK,
        c.rrf_score = some (rrfSpecScore rrfDefaultK c.id results_lists)
        ∧ ∃ c₀, results_lists.flatten.find? (fun d => d.id == c.id) = some c₀
            ∧ c = { c₀ with
                rrf_score := some (rrfSpecScore rrfDefaultK c.id results_lists) } :=
  ⟨rfl, rrf_output_spec results_lists rrfDefaultK hnd⟩

/-- Witness for C4 at two concrete ranked lists sharing one id. -/
theorem C4_witness :
    (∀ l ∈ wexC4, (l.map Candidate.id).Nodup)
    ∧ (reciprocal_rank_fusion wexC4 rrfDefaultK
        = reciprocal_rank_fusion wexC4 rrfDefaultK
      ∧ ∀ c ∈ reciprocal_rank_fusion wexC4 rrfDefaultK,
          c.rrf_score = some (rrfSpecScore rrfDefaultK c.id wexC4)
          ∧ ∃ c₀, wexC4.flatten.find? (fun d => d.id == c.id) = some c₀
              ∧ c = { c₀ with
                  rrf_score := some (rrfSpecScore rrfDefaultK c.id wexC4) }) :=
  ⟨by decide, C4_rrf_deterministic_formula wexC4 (by decide)⟩

/-- C5: a candidate identifier appears at most once in the output of rank
fusion and of the hybrid-response dedup, for every input; the balancer
preserves this property for every input whose ids are pairwise distinct
(the data model's id-uniqueness invariant, which holds for the fused or
deduplicated lists the pipeline feeds it). -/
theorem C5_dedup_invariant :
    (∀ (results_lists : List (List Candidate)) (k : Rat),
        ((reciprocal_rank_fusion results_lists k).map Candidate.id).Nodup)
    ∧ (∀ (candidates : List Candidate) (target_size min_per_type : Nat),
        (candidates.map Candidate.id).Nodup →
        ((balance_candidate_pool candidates target_size min_per_type).map Candidate.id).Nodup)
    ∧ (∀ points : List Candidate, ((dedupCandidates points).map Candidate.id).Nodup) :=
  ⟨rrf_output_nodup, balance_nodup, dedup_nodup⟩

/-- Witness for C5's balancer component at a concrete id-distinct pool. -/
theorem C5_witness :
    ((wexC1.map Candidate.id).Nodup)
    ∧ ((balance_candidate_pool wexC1 4 2).map Candidate.id).Nodup :=
  ⟨by decide, C5_dedup_invariant.2.1 wexC1 4 2 (by decide)⟩

/-- C6: for every retriever selection, the assembled evidence pack carries
ranks exactly `1..N` in order (no gaps or repeats) with non-increasing
rerank scores along them; the coverage-gate selection of `search_adk` is
likewise sorted by its key, and that key is the rerank score whenever one
is present (the rerank score supersedes the fusion score). -/
theorem C6_rank_contiguity :
    (∀ (scored_candidates : List ScoredCand) (top_k_final : Nat),
      (assembleEvidence (retrieveSelect scored_candidates top_k_final)).map EvidenceItem.rank
        = List.range' 1 (assembleEvidence (retrieveSelect scored_candidates top_k_final)).length
      ∧ (assembleEvidence (retrieveSelect scored_candidates top_k_final)).Pairwise
          (fun a b => b.rerank_score ≤ a.rerank_score))
    ∧ (∀ (candidates : List Candidate) (top_k min_docs min_code : Nat),
        ((apply_coverage_gates candidates top_k min_docs min_code).1).Sorted gateDesc)
    ∧ (∀ (c : Candidate) (r : Rat), gateSortKey { c with rerank_score := some r } = r) := by
  refine ⟨?_, gates_selected_sorted, fun c r => rfl⟩
  intro scored_candidates top_k_final
  constructor
  · show (evidenceOfScored 1 (retrieveSelect scored_candidates top_k_final)).map
        EvidenceItem.rank
      = List.range' 1
        (evidenceOfScored 1 (retrieveSelect scored_candidates top_k_final)).length
    rw [evidenceOfScored_length 1 (retrieveSelect scored_candidates top_k_final)]
    exact evidenceOfScored_map_rank 1 (retrieveSelect scored_candidates top_k_final)
  · exact evidenceOfScored_pairwise 1 (retrieveSelect scored_candidates top_k_final)
      (retrieveSelect_sorted scored_candidates top_k_final)

/-- C1 counterexample: with target size 4 and at least `4/2 = 2` available
candidates of each kind (3 docs, 2 code, distinct ids), the balanced pool
has 5 elements, not `min(4, 5) = 4`: the default `min_per_type = 10` floor
overrides the target for small targets. -/
theorem C1_counterexample :
    ((cexC1.map Candidate.id).Nodup)
    ∧ (4 / 2 ≤ (cexC1.filter (fun c => c.kind == "doc")).length)
    ∧ (4 / 2 ≤ (cexC1.filter (fun c => c.kind == "code")).length)
    ∧ (balance_candidate_pool cexC1 4 defaultMinPerType).length ≠ min 4 cexC1.length := by
  decide

/-- C1 amended: additionally requiring `min_per_type ≤ T/2` (true of every
pipeline call: `min_per_type = 10`, `T = rerank_candidates ≥ 40`) and
id-distinct input, the pool keeps at least `min(available, T/2)` of each
kind, each kind's sublist is a rank-order prefix of that kind's input, and
the total size is exactly `min(T, total_available)`. -/
theorem C1_balancer_bounds (candidates : List Candidate) (target_size min_per_type : Nat)
    (hnd : (candidates.map Candidate.id).Nodup)
    (hmpt : min_per_type ≤ target_size / 2)
    (hda : target_size / 2 ≤ (candidates.filter (fun c => c.kind == "doc")).length)
    (hca : target_size / 2 ≤ (candidates.filter (fun c => c.kind == "code")).length) :
    min ((candidates.filter (fun c => c.kind == "doc")).length) (target_size / 2)
        ≤ ((balance_candidate_pool candidates target_size min_per_type).filter
          (fun c => c.kind == "doc")).length
    ∧ min ((candidates.filter (fun c => c.kind == "code")).length) (target_size / 2)
        ≤ ((balance_candidate_pool candidates target_size min_per_type).filter
          (fun c => c.kind == "code")).length
    ∧ (∃ t, ((balance_candidate_pool candidates target_size min_per_type).filter
        (fun c => c.kind == "doc")) ++ t = candidates.filter (fun c => c.kind == "doc"))
    ∧ (∃ t, ((balance_candidate_pool candidates target_size min_per_type).filter
        (fun c => c.kind == "code")) ++ t = candidates.filter (fun c => c.kind == "code"))
    ∧ (balance_candidate_pool candidates target_size min_per_type).length
        = min target_size candidates.length := by
  obtain ⟨hpd, hpc, hld, hlc, hlen⟩ :=
    balance_pool_spec candidates target_size min_per_type hnd hmpt hda hca
  exact ⟨le_trans (min_le_right _ _) hld, le_trans (min_le_right _ _) hlc, hpd, hpc, hlen⟩

/-- Witness for the amended C1 at a concrete pool: 2 docs + 2 code,
target 4, floor 2. -/
theorem C1_witness :
    ((wexC1.map Candidate.id).Nodup
      ∧ 2 ≤ 4 / 2
      ∧ 4 / 2 ≤ (wexC1.filter (fun c => c.kind == "doc")).length
      ∧ 4 / 2 ≤ (wexC1.filter (fun c => c.kind == "code")).length)
    ∧ (min ((wexC1.filter (fun c => c.kind == "doc")).length) (4 / 2)
        ≤ ((balance_candidate_pool wexC1 4 2).filter (fun c => c.kind == "doc")).length
      ∧ min ((wexC1.filter (fun c => c.kind == "code")).length) (4 / 2)
        ≤ ((balance_candidate_pool wexC1 4 2).filter (fun c => c.kind == "code")).length
      ∧ (∃ t, ((balance_candidate_pool wexC1 4 2).filter (fun c => c.kind == "doc")) ++ t
          = wexC1.filter (fun c => c.kind == "doc"))
      ∧ (∃ t, ((balance_candidate_pool wexC1 4 2).filter (fun c => c.kind == "code")) ++ t
          = wexC1.filter (fun c => c.kind == "code"))
      ∧ (balance_candidate_pool wexC1 4 2).length = min 4 wexC1.length) :=
  ⟨⟨by decide, by decide, by decide, by decide⟩,
    C1_balancer_bounds wexC1 4 2 (by decide) (by decide) (by decide) (by decide)⟩

/-- C2: for every id-distinct scored candidate list (the data model's
id-uniqueness invariant) with at least `min_docs` docs and `min_code` code,
the gate selection keeps at least that many of each kind; when fewer of one
kind exist, the selection realizes fewer than the minimum and exactly one
non-fatal warning naming the realized counts is emitted; the selection is
always produced from the input — the shortfall never fails it. -/
theorem C2_coverage_gate_minimum (candidates : List Candidate)
    (top_k min_docs min_code : Nat)
    (hnd : (candidates.map Candidate.id).Nodup) :
    (min_docs ≤ (candidates.filter (fun c => c.kind == "doc")).length →
      min_code ≤ (candidates.filter (fun c => c.kind == "code")).length →
      min_docs ≤ (((apply_coverage_gates candidates top_k min_docs min_code).1).filter
          (fun c => c.kind == "doc")).length
      ∧ min_code ≤ (((apply_coverage_gates candidates top_k min_docs min_code).1).filter
          (fun c => c.kind == "code")).length)
    ∧ ((candidates.filter (fun c => c.kind == "doc")).length < min_docs
        ∨ (candidates.filter (fun c => c.kind == "code")).length < min_code →
      ∃ fd fc, fd = (((apply_coverage_gates candidates top_k min_docs min_code).1).filter
            (fun c => c.kind == "doc")).length
        ∧ fc = (((apply_coverage_gates candidates top_k min_docs min_code).1).filter
            (fun c => c.kind == "code")).length
        ∧ (fd < min_docs ∨ fc < min_code)
        ∧ (apply_coverage_gates candidates top_k min_docs min_code).2
            = [s!"Coverage gate: docs={fd}, code={fc} (wanted {min_docs}/{min_code})"])
    ∧ (∀ c ∈ (apply_coverage_gates candidates top_k min_docs min_code).1, c ∈ candidates) := by
  refine ⟨?_, ?_, gates_selected_mem candidates top_k min_docs min_code⟩
  · intro h1 h2
    exact gates_min_counts candidates top_k min_docs min_code hnd h1 h2
  · intro hshort
    have hcond : (((apply_coverage_gates candidates top_k min_docs min_code).1).filter
          (fun c => c.kind == "doc")).length < min_docs
        ∨ (((apply_coverage_gates candidates top_k min_docs min_code).1).filter
          (fun c => c.kind == "code")).length < min_code := by
      rcases hshort with hshort | hshort
      · exact Or.inl (lt_of_le_of_lt
          (gates_counts_le candidates top_k min_docs min_code _) hshort)
      · exact Or.inr (lt_of_le_of_lt
          (gates_counts_le candidates top_k min_docs min_code _) hshort)
    refine ⟨_, _, rfl, rfl, hcond, ?_⟩
    rw [gates_snd]
    dsimp only
    rw [← gates_fst candidates top_k min_docs min_code, if_pos hcond]

/-- Witness for C2: one doc and one code candidate, minimums 1/1. -/
theorem C2_witness :
    ((wexC2.map Candidate.id).Nodup)
    ∧ ((1 ≤ (wexC2.filter (fun c => c.kind == "doc")).length →
        1 ≤ (wexC2.filter (fun c => c.kind == "code")).length →
        1 ≤ (((apply_coverage_gates wexC2 2 1 1).1).filter
            (fun c => c.kind == "doc")).length
        ∧ 1 ≤ (((apply_coverage_gates wexC2 2 1 1).1).filter
            (fun c => c.kind == "code")).length)
      ∧ ((wexC2.filter (fun c => c.kind == "doc")).length < 1
          ∨ (wexC2.filter (fun c => c.kind == "code")).length < 1 →
        ∃ fd fc, fd = (((apply_coverage_gates wexC2 2 1 1).1).filter
              (fun c => c.kind == "doc")).length
          ∧ fc = (((apply_coverage_gates wexC2 2 1 1).1).filter
              (fun c => c.kind == "code")).length
          ∧ (fd < 1 ∨ fc < 1)
          ∧ (apply_coverage_gates wexC2 2 1 1).2
              = [s!"Coverage gate: docs={fd}, code={fc} (wanted {1}/{1})"])
      ∧ (∀ c ∈ (apply_coverage_gates wexC2 2 1 1).1, c ∈ wexC2)) :=
  ⟨by decide, C2_coverage_gate_minimum wexC2 2 1 1 (by decide)⟩

/-- C10: when enough of each kind exists (distinct ids) and the requested
`top_k` is smaller than `min_docs + min_code`, the selection has exactly
`min_docs + min_code` items — the forced inclusions are never trimmed to
fit `top_k`, and the fill is a no-op — so it exceeds `top_k`. -/
theorem C10_forced_minimums_not_trimmed (candidates : List Candidate)
    (top_k min_docs min_code : Nat)
    (hnd : (candidates.map Candidate.id).Nodup)
    (hda : min_docs ≤ (candidates.filter (fun c => c.kind == "doc")).length)
    (hca : min_code ≤ (candidates.filter (fun c => c.kind == "code")).length)
    (htk : top_k < min_docs + min_code) :
    ((apply_coverage_gates candidates top_k min_docs min_code).1).length
        = min_docs + min_code
    ∧ top_k < ((apply_coverage_gates candidates top_k min_docs min_code).1).length := by
  have h := gates_size_of_small_top_k candidates top_k min_docs min_code hnd hda hca htk
  exact ⟨h, by rw [h]; exact htk⟩

/-- Witness for C10: two candidates, minimums 1/1, requested `top_k = 1`. -/
theorem C10_witness :
    ((wexC2.map Candidate.id).Nodup
      ∧ 1 ≤ (wexC2.filter (fun c => c.kind == "doc")).length
      ∧ 1 ≤ (wexC2.filter (fun c => c.kind == "code")).length
      ∧ 1 < 1 + 1)
    ∧ (((apply_coverage_gates wexC2 1 1 1).1).length = 1 + 1
      ∧ 1 < ((apply_coverage_gates wexC2 1 1 1).1).length) :=
  ⟨⟨by decide, by decide, by decide, by decide⟩,
    C10_forced_minimums_not_trimmed wexC2 1 1 1 (by decide) (by decide) (by decide)
      (by decide)⟩

/-- C9 counterexample: the citation's corpus prefix is not taken from the
item's payload: a doc item from corpus `adk_docs` is cited with the
hardcoded literal `adk-docs`, so the claimed `{corpus}@...` format fails. -/
theorem C9_counterexample :
    buildCitation cexC9
      ≠ cexC9.corpus ++ "@" ++ cexC9.commit.take 7 ++ ":" ++ cexC9.path
        ++ "#" ++ cexC9.chunk_id := by
  decide

/-- C9 amended: the citation is built from the item's own payload except
for the corpus prefix, which is the hardcoded literal `adk-docs` /
`adk-python`: doc items cite `adk-docs@{short-ref}:{path}#{chunk-id}`,
code items cite `adk-python@{short-ref}:{path}#L{start}-L{end}` when a
truthy start line exists, else fall back to the chunk-id form; the short
ref is the payload commit truncated to 7 characters. -/
theorem C9_citation_format (payload : Candidate) :
    (payload.kind = "doc" →
      buildCitation payload
        = "adk-docs@" ++ payload.commit.take 7 ++ ":" ++ payload.path
          ++ "#" ++ payload.chunk_id)
    ∧ (payload.kind = "code" → ∀ s : Int, payload.start_line = some s → s ≠ 0 →
      buildCitation payload
        = "adk-python@" ++ payload.commit.take 7 ++ ":" ++ payload.path
          ++ "#L" ++ toString s ++ "-L" ++ optLineStr payload.end_line)
    ∧ (payload.kind = "code" → payload.start_line = none →
      buildCitation payload
        = "adk-python@" ++ payload.commit.take 7 ++ ":" ++ payload.path
          ++ "#" ++ payload.chunk_id) := by
  refine ⟨?_, ?_, ?_⟩
  · intro hk
    unfold buildCitation
    rw [if_pos (by rw [hk]; decide)]
  · intro hk s hs hs0
    have htr : pyTruthyLine payload.start_line = true := by
      rw [hs]
      simpa [pyTruthyLine] using hs0
    unfold buildCitation
    rw [if_neg (by rw [hk]; decide), if_pos htr, hs]
    rfl
  · intro hk hs
    have htr : pyTruthyLine payload.start_line = false := by
      rw [hs]
      rfl
    unfold buildCitation
    rw [if_neg (by rw [hk]; decide), if_neg (by rw [htr]; decide)]

/-- Witness for the amended C9 at a concrete code payload with lines
10-20. -/
theorem C9_witness :
    (wexC9.kind = "code" ∧ wexC9.start_line = some 10 ∧ (10 : Int) ≠ 0)
    ∧ buildCitation wexC9
        = "adk-python@" ++ wexC9.commit.take 7 ++ ":" ++ wexC9.path
          ++ "#L" ++ toString (10 : Int) ++ "-L" ++ optLineStr wexC9.end_line :=
  ⟨⟨rfl, rfl, by decide⟩,
    (C9_citation_format wexC9).2.1 rfl 10 rfl (by decide)⟩

/-- C3 counterexample: with a nonempty balanced pool and reranking enabled,
a reranker failure makes `search_adk` fail the query with the propagated
exception instead of returning an evidence pack ordered by fused score with
a warning: there is no try/except around `voyage.rerank`. -/
theorem C3_counterexample :
    search_adk_finalize wexC3 true (RerankOutcome.failure "reranker timeout") 12 []
      = Except.error "reranker timeout" := by
  rfl

/-- C3 amended: a reranker timeout or error propagates out of `search_adk`
as an exception (no local degradation to fused-score ordering and no
warning); the exposed MCP server operation catches it at the pipeline
boundary and returns a response with an explicit error indicator, empty
evidence, and a warning mentioning the failure, so the query does not
abort a batch. -/
theorem C3_rerank_failure_propagates (balanced_candidates : List Candidate)
    (msg : String) (top_k : Nat) (warnings : List String)
    (h : balanced_candidates ≠ []) :
    search_adk_finalize balanced_candidates true (RerankOutcome.failure msg) top_k warnings
        = Except.error msg
    ∧ ∀ (query : String) (preWarnings : List String) (ename : String),
        (rag_search_result query preWarnings (Except.error (ename, msg))).error = some msg
        ∧ (rag_search_result query preWarnings (Except.error (ename, msg))).evidence = []
        ∧ (rag_search_result query preWarnings (Except.error (ename, msg))).count = 0
        ∧ (rag_search_result query preWarnings (Except.error (ename, msg))).warnings
            = preWarnings ++ [s!"Search failed: {msg}"] :=
  ⟨search_adk_finalize_failure balanced_candidates msg top_k warnings h,
    fun _ _ _ => ⟨rfl, rfl, rfl, rfl⟩⟩

/-- Witness for the amended C3 at a concrete nonempty pool. -/
theorem C3_witness :
    (wexC3 ≠ [])
    ∧ (search_adk_finalize wexC3 true (RerankOutcome.failure "reranker timeout") 12 []
        = Except.error "reranker timeout"
      ∧ ∀ (query : String) (preWarnings : List String) (ename : String),
          (rag_search_result query preWarnings
            (Except.error (ename, "reranker timeout"))).error = some "reranker timeout"
          ∧ (rag_search_result query preWarnings
              (Except.error (ename, "reranker timeout"))).evidence = []
          ∧ (rag_search_result query preWarnings
              (Except.error (ename, "reranker timeout"))).count = 0
          ∧ (rag_search_result query preWarnings
              (Except.error (ename, "reranker timeout"))).warnings
              = preWarnings ++ [s!"Search failed: reranker timeout"]) :=
  ⟨by decide, C3_rerank_failure_propagates wexC3 "reranker timeout" 12 [] (by decide)⟩

/-- C8: any pipeline exception caught at the MCP boundary — in both
`rag_search` and `rag_search_quick` — yields a response that echoes the
query and carries an explicit error indicator (message and type), empty
evidence, zero counts, and a warning mentioning the failure, instead of
raising past the boundary. -/
theorem C8_fatal_error_contained (query : String) (preWarnings : List String)
    (ename emsg : String) :
    ((rag_search_result query preWarnings (Except.error (ename, emsg))).query = query
      ∧ (rag_search_result query preWarnings (Except.error (ename, emsg))).error = some emsg
      ∧ (rag_search_result query preWarnings
          (Except.error (ename, emsg))).error_type = some ename
      ∧ (rag_search_result query preWarnings (Except.error (ename, emsg))).evidence = []
      ∧ (rag_search_result query preWarnings (Except.error (ename, emsg))).count = 0
      ∧ (rag_search_result query preWarnings (Except.error (ename, emsg))).coverage
          = { doc_count := 0, code_count := 0, corpora := [] }
      ∧ (rag_search_result query preWarnings (Except.error (ename, emsg))).warnings
          = preWarnings ++ [s!"Search failed: {emsg}"])
    ∧ ((rag_search_quick_result query preWarnings (Except.error (ename, emsg))).query = query
      ∧ (rag_search_quick_result query preWarnings
          (Except.error (ename, emsg))).error = some emsg
      ∧ (rag_search_quick_result query preWarnings
          (Except.error (ename, emsg))).error_type = some ename
      ∧ (rag_search_quick_result query preWarnings (Except.error (ename, emsg))).evidence = []
      ∧ (rag_search_quick_result query preWarnings (Except.error (ename, emsg))).count = 0
      ∧ (rag_search_quick_result query preWarnings (Except.error (ename, emsg))).coverage
          = { doc_count := 0, code_count := 0, corpora := [] }
      ∧ (rag_search_quick_result query preWarnings
          (Except.error (ename, emsg))).warnings
          = preWarnings ++ [s!"Search failed: {emsg}"]) :=
  ⟨⟨rfl, rfl, rfl, rfl, rfl, rfl, rfl⟩, ⟨rfl, rfl, rfl, rfl, rfl, rfl, rfl⟩⟩

end Spec2Proof
